import Mathlib

/-
Verification of the Boruvka MST repository (IsaacCheng9/boruvkas-algorithm).

The repository contains two near-duplicate implementations of Boruvka's
algorithm plus a union-find structure:

* Variant A: `src/src/boruvkas_algorithm/boruvka.py`, class `Graph` with
  `run_boruvkas_algorithm`.  Its `merge_components` relabels every vertex of
  the smaller component.
* Variant B: `src/boruvka.py`, class `Graph` with `find_mst_with_boruvka`.
  Its `merge_components` redirects only the entry of the smaller component's
  identifier, so lookups `components[vertex]` (a single level of
  indirection, with no chasing) can become stale.
* `src/src/boruvkas_algorithm/union_find.py`, class `UnionFind` with
  iterative path halving in `find` and union by size in `union`.

Modelling conventions:
* Python `int` weights are embedded as `Int`; vertices as `Nat`.
* Python lists are `List _`; in-range accesses are embedded with `getD`
  (all accesses performed by the algorithms on the states the theorems are
  about are in range).  The first access `self.parent[node]` of
  `UnionFind.find`, whose index is caller-supplied, is embedded with full
  Python indexing semantics (negative indices wrap, out-of-range raises).
* The unbounded Python `while` loops are embedded with explicit fuel,
  returning `none` when the fuel is exhausted; a round that adds no edge
  leaves the state unchanged, so `none` at every fuel means the Python
  loop never terminates.
* `num_components` is a Python `int`; it is embedded as `Nat`.  The only
  reads of it are the loop guard `num_components > 1` and the final result
  never contains it, so truncated subtraction at `0` is observationally
  equivalent to Python's negative values.
* The sentinel `-1` used by variant B for an unset slot is embedded as
  `none` (variant A uses Python `None` directly).
-/

/-- An edge `(vertex_1, vertex_2, weight)` as stored in `Graph.edges`. -/
abbrev Edge := Nat × Nat × Int

/-- Embeds the `Graph` constructor shared by both variants: vertices are
`list(range(num_vertices))` and the edge list starts empty and is appended
to in order. -/
structure Graph where
  numVertices : Nat
  edges : List Edge
deriving Repr, DecidableEq

/-- Embeds `Graph.add_edge` (both variants check membership of both
endpoints in the vertex list, which equals `< numVertices`, and raise
`ValueError` otherwise). -/
def Graph.addEdge (g : Graph) (v1 v2 : Nat) (w : Int) : Option Graph :=
  if v1 < g.numVertices ∧ v2 < g.numVertices then
    some { g with edges := g.edges ++ [(v1, v2, w)] }
  else
    none

/-- Well-formedness of a graph: every stored edge has in-range endpoints.
This holds for every graph built through `Graph.addEdge`. -/
def Graph.WF (g : Graph) : Prop :=
  ∀ e ∈ g.edges, e.1 < g.numVertices ∧ e.2.1 < g.numVertices

/-- Adjacency induced by the stored (undirected) edge list. -/
def Graph.Adj (g : Graph) (u v : Nat) : Prop :=
  ∃ w, (u, v, w) ∈ g.edges ∨ (v, u, w) ∈ g.edges

/-- Connectivity of the input graph: every two vertices are joined by a
path of stored edges. -/
def Graph.Connected (g : Graph) : Prop :=
  ∀ u < g.numVertices, ∀ v < g.numVertices, Relation.ReflTransGen g.Adj u v

namespace VariantA

/-- The mutable state threaded through `run_boruvkas_algorithm`
(`src/src/boruvkas_algorithm/boruvka.py`): `vertex_to_component` (a dict
over the dense vertices `0..n-1`, embedded as a list indexed by vertex),
`component_sizes`, `mst_edges`, `mst_weight` and `num_components`. -/
structure AState where
  comp : List Nat
  sizes : List Nat
  mstEdges : List Edge
  mstWeight : Int
  numComponents : Nat
deriving Repr, DecidableEq

/-- Embeds `Graph.merge_components` of variant A: pick the smaller of the
two endpoint components by recorded size, relabel every vertex of the
smaller component to the larger label, and add the sizes. -/
def mergeComponents (comp : List Nat) (sizes : List Nat) (v1 v2 : Nat) :
    List Nat × List Nat :=
  let c1 := comp.getD v1 0
  let c2 := comp.getD v2 0
  let sl := if sizes.getD c1 0 < sizes.getD c2 0 then (c1, c2) else (c2, c1)
  (comp.map fun c => if c = sl.1 then sl.2 else c,
   sizes.set sl.2 (sizes.getD sl.2 0 + sizes.getD sl.1 0))

/-- Embeds the slot update of `update_min_edge_per_component` for one
component identifier: replace the slot when it is unset (`None`, which is
falsy) or when the new weight is strictly smaller. -/
def updateSlot (slots : List (Option Edge)) (c : Nat) (e : Edge) :
    List (Option Edge) :=
  match slots.getD c none with
  | none => slots.set c (some e)
  | some e' => if e.2.2 < e'.2.2 then slots.set c (some e) else slots

/-- Embeds the body of the edge loop of `update_min_edge_per_component`:
when the endpoints lie in different components, update both components'
slots. -/
def updateMinEdgeStep (comp : List Nat) (slots : List (Option Edge))
    (e : Edge) : List (Option Edge) :=
  let c1 := comp.getD e.1 0
  let c2 := comp.getD e.2.1 0
  if c1 ≠ c2 then updateSlot (updateSlot slots c1 e) c2 e else slots

/-- Embeds `Graph.update_min_edge_per_component`: fold the slot update
over the stored edge list in order. -/
def updateMinEdgePerComponent (g : Graph) (comp : List Nat)
    (slots : List (Option Edge)) : List (Option Edge) :=
  g.edges.foldl (updateMinEdgeStep comp) slots

/-- Embeds the body of the slot loop of
`connect_components_with_min_edges`: skip unset slots; for a held edge
whose endpoints are still in different components, append it to the MST,
add its weight, merge the components and decrement `num_components`. -/
def connectStep (st : AState) (slot : Option Edge) : AState :=
  match slot with
  | none => st
  | some e =>
    if st.comp.getD e.1 0 ≠ st.comp.getD e.2.1 0 then
      let p := mergeComponents st.comp st.sizes e.1 e.2.1
      { comp := p.1, sizes := p.2,
        mstEdges := st.mstEdges ++ [e],
        mstWeight := st.mstWeight + e.2.2,
        numComponents := st.numComponents - 1 }
    else st

/-- Embeds `Graph.connect_components_with_min_edges`: fold over the slot
list in component-identifier order. -/
def connectComponentsWithMinEdges (slots : List (Option Edge))
    (st : AState) : AState :=
  slots.foldl connectStep st

/-- Embeds `Graph.perform_iteration`: reset the slots to `None`, run the
candidate-selection phase, then the merge phase. -/
def performIteration (g : Graph) (st : AState) : AState :=
  connectComponentsWithMinEdges
    (updateMinEdgePerComponent g st.comp
      (List.replicate g.numVertices none)) st

/-- Embeds `Graph.initialize_components`. -/
def initializeComponents (g : Graph) : AState :=
  { comp := List.range g.numVertices,
    sizes := List.replicate g.numVertices 1,
    mstEdges := [], mstWeight := 0,
    numComponents := g.numVertices }

/-- Embeds the `while num_components > 1` loop of
`run_boruvkas_algorithm`, with explicit fuel. -/
def runLoop (g : Graph) : Nat → AState → Option AState
  | 0, st => if st.numComponents ≤ 1 then some st else none
  | fuel + 1, st =>
    if st.numComponents ≤ 1 then some st
    else runLoop g fuel (performIteration g st)

/-- Embeds `Graph.run_boruvkas_algorithm` (printing and drawing omitted):
returns `(mst_weight, mst_edges)`.  The fuel `numVertices` is sufficient
for every terminating run, since a round that adds no edge is a fixed
point of `performIteration`. -/
def runBoruvkasAlgorithm (g : Graph) : Option (Int × List Edge) :=
  (runLoop g g.numVertices (initializeComponents g)).map
    fun st => (st.mstWeight, st.mstEdges)

end VariantA

namespace VariantB

/-- The mutable state threaded through `find_mst_with_boruvka`
(`src/boruvka.py`): `components` (a dict over the dense vertices,
embedded as a list indexed by vertex), `component_sizes`, `mst_edges`,
`mst_weight` and `num_components`. -/
structure BState where
  comp : List Nat
  sizes : List Nat
  mstEdges : List Edge
  mstWeight : Int
  numComponents : Nat
deriving Repr, DecidableEq

/-- Embeds `Graph.merge_components` of variant B: redirect only the entry
of the smaller component's identifier to the larger identifier, and add
the sizes. -/
def mergeComponents (comp : List Nat) (sizes : List Nat) (v1 v2 : Nat) :
    List Nat × List Nat :=
  let c1 := comp.getD v1 0
  let c2 := comp.getD v2 0
  if sizes.getD c1 0 < sizes.getD c2 0 then
    (comp.set c1 c2, sizes.set c2 (sizes.getD c2 0 + sizes.getD c1 0))
  else
    (comp.set c2 c1, sizes.set c1 (sizes.getD c1 0 + sizes.getD c2 0))

/-- Embeds the slot update of `update_shortest_edge_per_vertex` for one
component identifier (the `-1` sentinel is embedded as `none`). -/
def updateSlot (slots : List (Option Edge)) (c : Nat) (e : Edge) :
    List (Option Edge) :=
  match slots.getD c none with
  | none => slots.set c (some e)
  | some e' => if e.2.2 < e'.2.2 then slots.set c (some e) else slots

/-- Embeds the body of the edge loop of `update_shortest_edge_per_vertex`. -/
def updateShortestEdgeStep (comp : List Nat) (slots : List (Option Edge))
    (e : Edge) : List (Option Edge) :=
  let c1 := comp.getD e.1 0
  let c2 := comp.getD e.2.1 0
  if c1 ≠ c2 then updateSlot (updateSlot slots c1 e) c2 e else slots

/-- Embeds `Graph.update_shortest_edge_per_vertex`. -/
def updateShortestEdgePerVertex (g : Graph) (comp : List Nat)
    (slots : List (Option Edge)) : List (Option Edge) :=
  g.edges.foldl (updateShortestEdgeStep comp) slots

/-- Embeds the body of the vertex loop of
`connect_components_with_min_edges` of variant B: skip unset slots; for a
held edge whose endpoints' one-level component labels differ, merge (with
the redirect-only merge), add the weight and append the edge. -/
def connectStep (st : BState) (slot : Option Edge) : BState :=
  match slot with
  | none => st
  | some e =>
    if st.comp.getD e.1 0 ≠ st.comp.getD e.2.1 0 then
      let p := mergeComponents st.comp st.sizes e.1 e.2.1
      { comp := p.1, sizes := p.2,
        mstEdges := st.mstEdges ++ [e],
        mstWeight := st.mstWeight + e.2.2,
        numComponents := st.numComponents - 1 }
    else st

/-- Embeds the `for vertex in self.vertices` loop of
`connect_components_with_min_edges` of variant B. -/
def connectComponentsWithMinEdges (slots : List (Option Edge))
    (st : BState) : BState :=
  slots.foldl connectStep st

/-- One iteration of the `while` loop of `find_mst_with_boruvka`. -/
def performIteration (g : Graph) (st : BState) : BState :=
  connectComponentsWithMinEdges
    (updateShortestEdgePerVertex g st.comp
      (List.replicate g.numVertices none)) st

/-- The initial state built at the top of `find_mst_with_boruvka`. -/
def initializeComponents (g : Graph) : BState :=
  { comp := List.range g.numVertices,
    sizes := List.replicate g.numVertices 1,
    mstEdges := [], mstWeight := 0,
    numComponents := g.numVertices }

/-- Embeds the `while num_components > 1` loop of
`find_mst_with_boruvka`, with explicit fuel. -/
def runLoop (g : Graph) : Nat → BState → Option BState
  | 0, st => if st.numComponents ≤ 1 then some st else none
  | fuel + 1, st =>
    if st.numComponents ≤ 1 then some st
    else runLoop g fuel (performIteration g st)

/-- Embeds `Graph.find_mst_with_boruvka` (printing omitted): returns
`(mst_weight, mst_edges)`. -/
def findMstWithBoruvka (g : Graph) : Option (Int × List Edge) :=
  (runLoop g g.numVertices (initializeComponents g)).map
    fun st => (st.mstWeight, st.mstEdges)

end VariantB

/-- The 9-vertex example graph built by `main` in both variants and by the
repository's tests, with its edges in insertion order. -/
def exampleGraph9 : Graph :=
  { numVertices := 9,
    edges := [(0, 1, 4), (0, 6, 7), (1, 6, 11), (1, 7, 20), (1, 2, 9),
              (2, 3, 6), (2, 4, 2), (3, 4, 10), (3, 5, 5), (4, 5, 15),
              (4, 7, 1), (4, 8, 5), (5, 8, 12), (6, 7, 1), (7, 8, 3)] }

/-- The triangle graph from `test_mst_simple_triangle`. -/
def triangleGraph : Graph :=
  { numVertices := 3, edges := [(0, 1, 1), (1, 2, 2), (0, 2, 3)] }

/-- The chain graph from `test_mst_linear_graph`. -/
def chainGraph : Graph :=
  { numVertices := 4, edges := [(0, 1, 1), (1, 2, 2), (2, 3, 3)] }

/-- A connected 7-vertex graph on which the two variants disagree:
variant B's one-level component lookup goes stale after the merge of the
round-two edge `(1, 4, 3)` redirects label `0` to label `2` while vertex
`1` keeps label `0`. -/
def staleGraph7 : Graph :=
  { numVertices := 7,
    edges := [(0, 1, 1), (2, 3, 1), (3, 4, 2), (1, 4, 3), (1, 6, 4),
              (5, 6, 1)] }

/-- Two isolated vertices and no edge: the disconnected input from the
specification's error-handling scenario. -/
def twoIsolated : Graph := { numVertices := 2, edges := [] }

/-- Embeds the `UnionFind` class of
`src/src/boruvkas_algorithm/union_find.py`: a parent list and a list named
`rank` that actually records set sizes. -/
structure UnionFind where
  parent : List Nat
  rank : List Nat
deriving Repr, DecidableEq

/-- Embeds `UnionFind.__init__`: each node its own parent, every size 1. -/
def UnionFind.init (size : Nat) : UnionFind :=
  { parent := List.range size, rank := List.replicate size 1 }

/-- Python list indexing: `0 ≤ i < len` accesses position `i`;
`-len ≤ i < 0` wraps and accesses position `len + i`; anything else
raises `IndexError` (embedded as `none`). -/
def pyIndex (len : Nat) (i : Int) : Option Nat :=
  if 0 ≤ i ∧ i < (len : Int) then some i.toNat
  else if -(len : Int) ≤ i ∧ i < 0 then some ((len : Int) + i).toNat
  else none

/-- Embeds the `while cur_parent != self.parent[cur_parent]` loop of
`UnionFind.find` with its path halving
(`self.parent[cur_parent] = self.parent[self.parent[cur_parent]]`), with
explicit fuel.  Accesses inside the loop read values previously stored in
the parent list, which are in range in every state the theorems below
consider, so they are embedded with `getD`. -/
def findLoop : Nat → List Nat → Nat → Option (List Nat × Nat)
  | 0, _, _ => none
  | fuel + 1, parent, cur =>
    let p := parent.getD cur 0
    if p = cur then some (parent, cur)
    else findLoop fuel (parent.set cur (parent.getD p 0)) (parent.getD p 0)

/-- Embeds `UnionFind.find`: the initial access `self.parent[node]` uses
full Python indexing semantics on the caller-supplied `node`; the loop
returns the root and the (path-halved) parent list.  The fuel
`parent.length + 1` suffices whenever the Python loop terminates. -/
def UnionFind.find (uf : UnionFind) (node : Int) :
    Option (UnionFind × Nat) :=
  match pyIndex uf.parent.length node with
  | none => none
  | some k =>
    match findLoop (uf.parent.length + 1) uf.parent (uf.parent.getD k 0) with
    | none => none
    | some (p, r) => some ({ uf with parent := p }, r)

/-- Embeds `UnionFind.union`: find both roots (each call path-halves), and
if they differ, attach the root of smaller recorded size (`rank`) under
the other, adding the sizes; `rank[root1] > rank[root2]` keeps `root1`. -/
def UnionFind.union (uf : UnionFind) (node1 node2 : Int) :
    Option (UnionFind × Bool) :=
  match uf.find node1 with
  | none => none
  | some (uf1, r1) =>
    match uf1.find node2 with
    | none => none
    | some (uf2, r2) =>
      if r1 = r2 then some (uf2, false)
      else if uf2.rank.getD r2 0 < uf2.rank.getD r1 0 then
        some ({ parent := uf2.parent.set r2 r1,
                rank := uf2.rank.set r1
                  (uf2.rank.getD r1 0 + uf2.rank.getD r2 0) }, true)
      else
        some ({ parent := uf2.parent.set r1 r2,
                rank := uf2.rank.set r2
                  (uf2.rank.getD r2 0 + uf2.rank.getD r1 0) }, true)

/-- The union-find state reached from `UnionFind.init 8` by the call
sequence `union(0,1); union(2,3); union(0,2); union(4,5); union(6,7);
union(4,6); union(0,4)`.  Node `1` then sits at depth 2 below root `7`. -/
def ufChainState : Option UnionFind :=
  ((((((((UnionFind.init 8).union 0 1).bind fun s => s.1.union 2 3).bind
    fun s => s.1.union 0 2).bind fun s => s.1.union 4 5).bind
    fun s => s.1.union 6 7).bind fun s => s.1.union 4 6).bind
    fun s => s.1.union 0 4).map fun s => s.1

/-- k-fold iteration of the parent map (entry lookup with default 0; all
lookups performed on the states considered below are in range). -/
def iterP (parent : List Nat) : Nat → Nat → Nat
  | 0, x => x
  | k + 1, x => iterP parent k (parent.getD x 0)

/-- A node whose stored parent is itself. -/
def IsRoot (parent : List Nat) (x : Nat) : Prop := parent.getD x 0 = x

instance (parent : List Nat) (x : Nat) : Decidable (IsRoot parent x) :=
  inferInstanceAs (Decidable (_ = _))

/-- The parent chain starting at `x` reaches a root. -/
def Grounded (parent : List Nat) (x : Nat) : Prop :=
  ∃ k, IsRoot parent (iterP parent k x)

/-- The number of steps from `x` to the root of its chain. -/
def dist (parent : List Nat) (x : Nat) (h : Grounded parent x) : Nat :=
  Nat.find h

/-- The root of `x`'s chain, computed with `parent.length` iterations —
enough steps for every grounded chain with in-range entries. -/
def rootD (parent : List Nat) (x : Nat) : Nat :=
  iterP parent parent.length x

/-- Well-formedness of a union-find state: the size list is as long as
the parent list, parent entries are in range, and every chain reaches a
root. -/
def UFInv (uf : UnionFind) : Prop :=
  uf.rank.length = uf.parent.length ∧
  (∀ i < uf.parent.length, uf.parent.getD i 0 < uf.parent.length) ∧
  (∀ i < uf.parent.length, Grounded uf.parent i)

/-- Union-find states reachable from a fresh `UnionFind.__init__` by any
sequence of successful `find` and `union` calls. -/
inductive Reachable : UnionFind → Prop
  | init (n : Nat) : Reachable (UnionFind.init n)
  | findStep {uf uf' : UnionFind} {x : Int} {r : Nat} :
      Reachable uf → uf.find x = some (uf', r) → Reachable uf'
  | unionStep {uf uf' : UnionFind} {a b : Int} {t : Bool} :
      Reachable uf → uf.union a b = some (uf', t) → Reachable uf'

/-- The set of component labels in use over the `n` vertices of a graph,
for a given vertex-to-component assignment. -/
def labelFinset (n : Nat) (comp : List Nat) : Finset Nat :=
  (Finset.range n).image fun v => comp.getD v 0

/-- The state invariant maintained by every round of
`run_boruvkas_algorithm`: the component list covers all vertices with
in-range labels, `num_components` counts the labels in use, `mst_weight`
is the sum of the collected edges' weights, and the collected edge count
plus `num_components` is the vertex count. -/
def VariantA.Inv (g : Graph) (st : VariantA.AState) : Prop :=
  st.comp.length = g.numVertices ∧
  (∀ v < g.numVertices, st.comp.getD v 0 < g.numVertices) ∧
  st.numComponents = (labelFinset g.numVertices st.comp).card ∧
  st.mstWeight = (st.mstEdges.map fun e => e.2.2).sum ∧
  st.mstEdges.length + st.numComponents = g.numVertices

section GetDHelpers

variable {α : Type}

lemma getD_set_same (l : List α) (i : Nat) (v d : α) (h : i < l.length) :
    (l.set i v).getD i d = v := by
  simp [List.getD_eq_getElem?_getD, List.getElem?_set, h]

lemma getD_set_diff (l : List α) (i j : Nat) (v d : α) (h : i ≠ j) :
    (l.set i v).getD j d = l.getD j d := by
  simp [List.getD_eq_getElem?_getD, List.getElem?_set, h]

lemma getD_map_lt (l : List α) (f : α → α) (i : Nat) (d : α)
    (h : i < l.length) : (l.map f).getD i d = f (l.getD i d) := by
  simp [List.getD_eq_getElem?_getD, List.getElem?_map,
    List.getElem?_eq_getElem h]

lemma getD_range_lt (n i : Nat) (h : i < n) : (List.range n).getD i 0 = i := by
  simp [List.getD_eq_getElem?_getD, List.getElem?_range, h]

lemma getD_mem_of_lt (l : List α) (i : Nat) (d : α) (h : i < l.length) :
    l.getD i d ∈ l := by
  rw [List.getD_eq_getElem?_getD, List.getElem?_eq_getElem h]
  exact List.getElem_mem h

end GetDHelpers

/-- Adjacency through the stored edge list is symmetric. -/
lemma graph_adj_symm (g : Graph) : Symmetric g.Adj := by
  rintro u v ⟨w, h | h⟩
  · exact ⟨w, Or.inr h⟩
  · exact ⟨w, Or.inl h⟩

/-- The 7-vertex divergence graph is connected. -/
lemma staleGraph7_connected : staleGraph7.Connected := by
  have e01 : staleGraph7.Adj 0 1 := ⟨1, Or.inl (by decide)⟩
  have e14 : staleGraph7.Adj 1 4 := ⟨3, Or.inl (by decide)⟩
  have e43 : staleGraph7.Adj 4 3 := ⟨2, Or.inr (by decide)⟩
  have e32 : staleGraph7.Adj 3 2 := ⟨1, Or.inr (by decide)⟩
  have e16 : staleGraph7.Adj 1 6 := ⟨4, Or.inl (by decide)⟩
  have e65 : staleGraph7.Adj 6 5 := ⟨1, Or.inr (by decide)⟩
  have h0 : Relation.ReflTransGen staleGraph7.Adj 0 0 := .refl
  have h1 : Relation.ReflTransGen staleGraph7.Adj 0 1 := .single e01
  have h4 : Relation.ReflTransGen staleGraph7.Adj 0 4 := h1.tail e14
  have h3 : Relation.ReflTransGen staleGraph7.Adj 0 3 := h4.tail e43
  have h2 : Relation.ReflTransGen staleGraph7.Adj 0 2 := h3.tail e32
  have h6 : Relation.ReflTransGen staleGraph7.Adj 0 6 := h1.tail e16
  have h5 : Relation.ReflTransGen staleGraph7.Adj 0 5 := h6.tail e65
  have reach : ∀ x, x < 7 → Relation.ReflTransGen staleGraph7.Adj 0 x := by
    intro x hx
    interval_cases x
    exacts [h0, h1, h2, h3, h4, h5, h6]
  intro u hu v hv
  exact ((Relation.ReflTransGen.symmetric (graph_adj_symm _)) (reach u hu)).trans
    (reach v hv)

/-- C3: on the 9-vertex example graph with its edges in insertion order,
the MST computation (both variants) returns weight 29, and the returned
edge list has exactly the expected edge set. -/
theorem boruvka_example9_mst :
    VariantA.runBoruvkasAlgorithm exampleGraph9 =
      some (29, [(0, 1, 4), (2, 4, 2), (3, 5, 5), (4, 7, 1), (6, 7, 1),
                 (7, 8, 3), (0, 6, 7), (2, 3, 6)]) ∧
    VariantB.findMstWithBoruvka exampleGraph9 =
      some (29, [(0, 1, 4), (2, 4, 2), (3, 5, 5), (4, 7, 1), (6, 7, 1),
                 (7, 8, 3), (0, 6, 7), (2, 3, 6)]) ∧
    [(0, 1, 4), (2, 4, 2), (3, 5, 5), (4, 7, 1), (6, 7, 1), (7, 8, 3),
     (0, 6, 7), (2, 3, 6)].toFinset =
      ({(0, 1, 4), (0, 6, 7), (2, 3, 6), (2, 4, 2), (3, 5, 5), (4, 7, 1),
        (6, 7, 1), (7, 8, 3)} : Finset Edge) := by
  refine ⟨by decide, by decide, by decide⟩

/-- C4 counterexample: on the connected graph `staleGraph7` the two
variants return different results — variant B appends the edge
`(1, 4, 3)` twice because vertex 1's component label is stale after the
merge redirect, so the difference is behavioral, not cosmetic. -/
theorem variants_differ_on_stale_graph :
    VariantA.runBoruvkasAlgorithm staleGraph7 =
      some (12, [(0, 1, 1), (2, 3, 1), (3, 4, 2), (5, 6, 1), (1, 4, 3),
                 (1, 6, 4)]) ∧
    VariantB.findMstWithBoruvka staleGraph7 =
      some (15, [(0, 1, 1), (2, 3, 1), (3, 4, 2), (5, 6, 1), (1, 4, 3),
                 (1, 4, 3), (1, 6, 4)]) ∧
    VariantA.runBoruvkasAlgorithm staleGraph7 ≠
      VariantB.findMstWithBoruvka staleGraph7 := by
  refine ⟨by decide, by decide, by decide⟩

/-- C4 amended: the two variants agree on the repository's example graphs
(the 9-vertex example, the triangle and the chain), though not on every
input graph. -/
theorem variants_agree_on_example_graphs :
    VariantA.runBoruvkasAlgorithm exampleGraph9 =
      VariantB.findMstWithBoruvka exampleGraph9 ∧
    VariantA.runBoruvkasAlgorithm triangleGraph =
      VariantB.findMstWithBoruvka triangleGraph ∧
    VariantA.runBoruvkasAlgorithm chainGraph =
      VariantB.findMstWithBoruvka chainGraph := by
  refine ⟨by decide, by decide, by decide⟩

/-- C2 counterexample: `staleGraph7` is connected with 7 vertices, yet
`find_mst_with_boruvka` returns an edge list of length 7, not
`7 - 1 = 6` (and its weight 15 is the sum of a list with a duplicated
edge). -/
theorem boruvka_top_level_wrong_edge_count :
    staleGraph7.Connected ∧
    VariantB.findMstWithBoruvka staleGraph7 =
      some (15, [(0, 1, 1), (2, 3, 1), (3, 4, 2), (5, 6, 1), (1, 4, 3),
                 (1, 4, 3), (1, 6, 4)]) ∧
    [(0, 1, 1), (2, 3, 1), (3, 4, 2), (5, 6, 1), (1, 4, 3), (1, 4, 3),
     (1, 6, 4)].length ≠ staleGraph7.numVertices - 1 :=
  ⟨staleGraph7_connected, by decide, by decide⟩

/-- One `performIteration` of variant A is a fixed point on the
disconnected two-vertex input. -/
lemma performIterationA_twoIsolated_fixed :
    VariantA.performIteration twoIsolated
      (VariantA.initializeComponents twoIsolated) =
      VariantA.initializeComponents twoIsolated := by decide

/-- One `performIteration` of variant B is a fixed point on the
disconnected two-vertex input. -/
lemma performIterationB_twoIsolated_fixed :
    VariantB.performIteration twoIsolated
      (VariantB.initializeComponents twoIsolated) =
      VariantB.initializeComponents twoIsolated := by decide

/-- C1 (code bug evidence): on the disconnected input with vertices
`{0, 1}` and no edges, neither variant ever detects the missing progress:
the loop state is a fixed point with `num_components = 2`, so no amount of
fuel makes the `while num_components > 1` loop terminate — the Python code
loops forever instead of reporting a disconnected-graph failure. -/
theorem boruvka_disconnected_loops_forever :
    (∀ fuel, VariantA.runLoop twoIsolated fuel
      (VariantA.initializeComponents twoIsolated) = none) ∧
    (∀ fuel, VariantB.runLoop twoIsolated fuel
      (VariantB.initializeComponents twoIsolated) = none) ∧
    VariantA.runBoruvkasAlgorithm twoIsolated = none ∧
    VariantB.findMstWithBoruvka twoIsolated = none := by
  have hA : ∀ fuel, VariantA.runLoop twoIsolated fuel
      (VariantA.initializeComponents twoIsolated) = none := by
    intro fuel
    induction fuel with
    | zero => decide
    | succ n ih =>
      rw [show VariantA.runLoop twoIsolated (n + 1)
            (VariantA.initializeComponents twoIsolated) =
          VariantA.runLoop twoIsolated n
            (VariantA.performIteration twoIsolated
              (VariantA.initializeComponents twoIsolated)) from rfl,
        performIterationA_twoIsolated_fixed]
      exact ih
  have hB : ∀ fuel, VariantB.runLoop twoIsolated fuel
      (VariantB.initializeComponents twoIsolated) = none := by
    intro fuel
    induction fuel with
    | zero => decide
    | succ n ih =>
      rw [show VariantB.runLoop twoIsolated (n + 1)
            (VariantB.initializeComponents twoIsolated) =
          VariantB.runLoop twoIsolated n
            (VariantB.performIteration twoIsolated
              (VariantB.initializeComponents twoIsolated)) from rfl,
        performIterationB_twoIsolated_fixed]
      exact ih
  refine ⟨hA, hB, ?_, ?_⟩
  · simp [VariantA.runBoruvkasAlgorithm, hA]
  · simp [VariantB.findMstWithBoruvka, hB]

/-- Variant B's slot update coincides with variant A's. -/
lemma updateSlotB_eq_updateSlotA : VariantB.updateSlot = VariantA.updateSlot :=
  rfl

/-- Variant B's per-edge slot step coincides with variant A's. -/
lemma updateStepB_eq_updateStepA :
    VariantB.updateShortestEdgeStep = VariantA.updateMinEdgeStep := rfl

/-- A slot that holds an edge of weight not larger than the incoming
edge's weight is left unchanged by `updateSlot`, whichever component
identifier is being updated. -/
lemma updateSlotA_getD_keep (slots : List (Option Edge)) (c c' : Nat)
    (e e' : Edge) (hold : slots.getD c none = some e')
    (hw : ¬ e.2.2 < e'.2.2) :
    (VariantA.updateSlot slots c' e).getD c none = some e' := by
  unfold VariantA.updateSlot
  by_cases hcc : c' = c
  · subst hcc
    rw [hold]
    simpa [hw] using hold
  · cases hh : slots.getD c' none with
    | none =>
      show (slots.set c' (some e)).getD c none = some e'
      rw [getD_set_diff _ _ _ _ _ hcc, hold]
    | some e2 =>
      show (if e.2.2 < e2.2.2 then slots.set c' (some e) else slots).getD c
          none = some e'
      by_cases hlt : e.2.2 < e2.2.2
      · rw [if_pos hlt, getD_set_diff _ _ _ _ _ hcc, hold]
      · rw [if_neg hlt, hold]

/-- C5: during candidate selection, a later edge whose weight is not
strictly smaller than the stored weight never replaces an occupied slot —
in particular an exact-weight tie keeps the earlier edge — for the
per-edge step of both variants. -/
theorem tie_break_keeps_first_edge (comp : List Nat)
    (slots : List (Option Edge)) (e e' : Edge) (c : Nat)
    (hold : slots.getD c none = some e') (hw : ¬ e.2.2 < e'.2.2) :
    (VariantA.updateMinEdgeStep comp slots e).getD c none = some e' ∧
    (VariantB.updateShortestEdgeStep comp slots e).getD c none = some e' := by
  have hA : (VariantA.updateMinEdgeStep comp slots e).getD c none = some e' := by
    unfold VariantA.updateMinEdgeStep
    by_cases h : comp.getD e.1 0 ≠ comp.getD e.2.1 0
    · rw [if_pos h]
      exact updateSlotA_getD_keep _ _ _ _ _
        (updateSlotA_getD_keep _ _ _ _ _ hold hw) hw
    · rw [if_neg h]
      exact hold
  exact ⟨hA, by rw [updateStepB_eq_updateStepA]; exact hA⟩

/-- Witness for the tie-break theorem: a slot holding `(0, 1, 5)` is not
overwritten by the equal-weight edge `(0, 1, 5)` arriving again. -/
theorem tie_break_keeps_first_edge_witness :
    (VariantA.updateMinEdgeStep [0, 1] [some (0, 1, 5), none]
      (0, 1, 5)).getD 0 none = some (0, 1, 5) ∧
    (VariantB.updateShortestEdgeStep [0, 1] [some (0, 1, 5), none]
      (0, 1, 5)).getD 0 none = some (0, 1, 5) :=
  tie_break_keeps_first_edge [0, 1] [some (0, 1, 5), none] (0, 1, 5)
    (0, 1, 5) 0 (by decide) (by decide)

/-- C9 counterexample: `find(-1)` on a freshly constructed `UnionFind(2)`
does not fail with an index error — Python's negative indexing wraps
around, and the call returns the root `1` with the state unchanged. -/
theorem find_negative_index_succeeds :
    (UnionFind.init 2).find (-1) = some (UnionFind.init 2, 1) ∧
    (UnionFind.init 2).find (-1) ≠ none := by
  refine ⟨by decide, by decide⟩

/-- C8 counterexample: in the reachable eight-element state built by
`ufChainState`, the same-set call `union(0, 1)` returns `False` but
rewrites `parent[1]` from `3` to `7` (path halving inside `find`), so the
parent array is not unchanged. -/
theorem union_same_set_mutates_parent :
    ufChainState =
      some ⟨[1, 3, 3, 7, 5, 7, 7, 7], [1, 2, 1, 4, 1, 2, 1, 8]⟩ ∧
    UnionFind.union ⟨[1, 3, 3, 7, 5, 7, 7, 7], [1, 2, 1, 4, 1, 2, 1, 8]⟩
        0 1 =
      some (⟨[1, 7, 3, 7, 5, 7, 7, 7], [1, 2, 1, 4, 1, 2, 1, 8]⟩, false) ∧
    ([1, 7, 3, 7, 5, 7, 7, 7] : List Nat) ≠ [1, 3, 3, 7, 5, 7, 7, 7] := by
  refine ⟨by decide, by decide, by decide⟩

lemma iterP_zero (p : List Nat) (x : Nat) : iterP p 0 x = x := rfl

lemma iterP_succ (p : List Nat) (k x : Nat) :
    iterP p (k + 1) x = iterP p k (p.getD x 0) := rfl

lemma iterP_add (p : List Nat) (a b x : Nat) :
    iterP p (a + b) x = iterP p a (iterP p b x) := by
  induction b generalizing x with
  | zero => rfl
  | succ b ih => rw [Nat.add_succ, iterP_succ, iterP_succ, ih]

lemma iterP_succ_out (p : List Nat) (k x : Nat) :
    iterP p (k + 1) x = p.getD (iterP p k x) 0 := by
  have h := iterP_add p 1 k x
  rw [Nat.add_comm 1 k] at h
  rw [h, iterP_succ, iterP_zero]

lemma isRoot_iterP (p : List Nat) (r : Nat) (h : IsRoot p r) (k : Nat) :
    iterP p k r = r := by
  induction k with
  | zero => rfl
  | succ k ih => rw [iterP_succ_out, ih, h]

lemma dist_spec (p : List Nat) (x : Nat) (h : Grounded p x) :
    IsRoot p (iterP p (dist p x h) x) :=
  Nat.find_spec h

lemma dist_min (p : List Nat) (x : Nat) (h : Grounded p x) {k : Nat}
    (hk : k < dist p x h) : ¬ IsRoot p (iterP p k x) :=
  Nat.find_min h hk

lemma dist_le (p : List Nat) (x : Nat) (h : Grounded p x) {k : Nat}
    (hk : IsRoot p (iterP p k x)) : dist p x h ≤ k :=
  Nat.find_min' h hk

lemma iterP_of_dist_le (p : List Nat) (x : Nat) (h : Grounded p x) {k : Nat}
    (hk : dist p x h ≤ k) : iterP p k x = iterP p (dist p x h) x := by
  obtain ⟨m, rfl⟩ := Nat.exists_eq_add_of_le hk
  rw [Nat.add_comm, iterP_add]
  exact isRoot_iterP p _ (dist_spec p x h) m

lemma dist_eq_zero_of_isRoot (p : List Nat) (x : Nat) (h : Grounded p x)
    (hr : IsRoot p x) : dist p x h = 0 :=
  Nat.le_zero.mp (dist_le p x h (by rw [iterP_zero]; exact hr))

lemma isRoot_of_dist_eq_zero (p : List Nat) (x : Nat) (h : Grounded p x)
    (hd : dist p x h = 0) : IsRoot p x := by
  have := dist_spec p x h
  rwa [hd, iterP_zero] at this

lemma grounded_step (p : List Nat) (x : Nat) (h : Grounded p x) :
    Grounded p (p.getD x 0) := by
  obtain ⟨k, hk⟩ := h
  cases k with
  | zero =>
    rw [iterP_zero] at hk
    exact ⟨0, by rw [iterP_zero, show p.getD x 0 = x from hk]; exact hk⟩
  | succ k => exact ⟨k, by rw [← iterP_succ]; exact hk⟩

lemma dist_step_eq (p : List Nat) (x : Nat) (h : Grounded p x)
    (hx : ¬ IsRoot p x) :
    dist p (p.getD x 0) (grounded_step p x h) = dist p x h - 1 := by
  have hpos : 0 < dist p x h := by
    rcases Nat.eq_zero_or_pos (dist p x h) with h0 | h0
    · exact absurd (isRoot_of_dist_eq_zero p x h h0) hx
    · exact h0
  have hle1 : dist p (p.getD x 0) (grounded_step p x h) ≤ dist p x h - 1 := by
    refine dist_le p _ _ ?_
    rw [← iterP_succ, Nat.sub_add_cancel hpos]
    exact dist_spec p x h
  have hle2 : dist p x h ≤ dist p (p.getD x 0) (grounded_step p x h) + 1 := by
    refine dist_le p _ _ ?_
    rw [iterP_succ]
    exact dist_spec p _ (grounded_step p x h)
  omega

lemma dist_step_lt (p : List Nat) (x : Nat) (h : Grounded p x)
    (hx : ¬ IsRoot p x) :
    dist p (p.getD x 0) (grounded_step p x h) < dist p x h := by
  have hpos : 0 < dist p x h := by
    rcases Nat.eq_zero_or_pos (dist p x h) with h0 | h0
    · exact absurd (isRoot_of_dist_eq_zero p x h h0) hx
    · exact h0
  rw [dist_step_eq p x h hx]
  omega

lemma iterP_ne_of_lt_dist (p : List Nat) (x : Nat) (h : Grounded p x)
    {i j : Nat} (hij : i < j) (hj : j ≤ dist p x h) :
    iterP p i x ≠ iterP p j x := by
  intro heq
  have hroot := dist_spec p x h
  have h1 : iterP p (dist p x h) x = iterP p (dist p x h - j + i) x := by
    conv_lhs => rw [show dist p x h = (dist p x h - j) + j from
      (Nat.sub_add_cancel hj).symm]
    rw [iterP_add, ← heq, ← iterP_add]
  rw [h1] at hroot
  exact dist_min p x h (by omega) hroot

lemma iterP_lt_len (p : List Nat)
    (hE : ∀ i < p.length, p.getD i 0 < p.length) (x : Nat)
    (hx : x < p.length) (k : Nat) : iterP p k x < p.length := by
  induction k with
  | zero => exact hx
  | succ k ih => rw [iterP_succ_out]; exact hE _ ih

lemma dist_lt_len (p : List Nat)
    (hE : ∀ i < p.length, p.getD i 0 < p.length) (x : Nat)
    (hx : x < p.length) (h : Grounded p x) : dist p x h < p.length := by
  by_contra hge
  push_neg at hge
  have hinj : Function.Injective (fun j : Fin (p.length + 1) =>
      (⟨iterP p j x, iterP_lt_len p hE x hx j⟩ : Fin p.length)) := by
    intro a b hab
    simp only [Fin.mk.injEq] at hab
    by_contra hne
    have hne' : (a : Nat) ≠ (b : Nat) := fun hc => hne (Fin.ext hc)
    rcases Nat.lt_or_ge (a : Nat) (b : Nat) with hl | hge2
    · exact iterP_ne_of_lt_dist p x h hl
        (le_trans (Nat.le_of_lt_succ b.isLt) hge) hab
    · have hl' : (b : Nat) < (a : Nat) := lt_of_le_of_ne hge2 fun hc =>
        hne' hc.symm
      exact iterP_ne_of_lt_dist p x h hl'
        (le_trans (Nat.le_of_lt_succ a.isLt) hge) hab.symm
  have hcard := Fintype.card_le_of_injective _ hinj
  simp only [Fintype.card_fin] at hcard
  omega

lemma iterP_set_avoid (p : List Nat) (c v x : Nat) {k : Nat}
    (havoid : ∀ j < k, iterP p j x ≠ c) :
    iterP (p.set c v) k x = iterP p k x := by
  induction k generalizing x with
  | zero => rfl
  | succ k ih =>
    have hx0 : x ≠ c := by
      have := havoid 0 (Nat.succ_pos k)
      rwa [iterP_zero] at this
    rw [iterP_succ, iterP_succ, getD_set_diff _ _ _ _ _ (Ne.symm hx0)]
    exact ih _ fun j hj => by
      rw [← iterP_succ]
      exact havoid (j + 1) (Nat.succ_lt_succ hj)

lemma rootD_eq_iterP_dist (p : List Nat) (x : Nat) (h : Grounded p x)
    (hd : dist p x h ≤ p.length) : rootD p x = iterP p (dist p x h) x :=
  iterP_of_dist_le p x h hd

lemma rootD_of_isRoot (p : List Nat) (x : Nat) (h : IsRoot p x) :
    rootD p x = x :=
  isRoot_iterP p x h _

lemma isRoot_rootD (p : List Nat)
    (hE : ∀ i < p.length, p.getD i 0 < p.length) (x : Nat)
    (hx : x < p.length) (h : Grounded p x) : IsRoot p (rootD p x) := by
  rw [rootD_eq_iterP_dist p x h (le_of_lt (dist_lt_len p hE x hx h))]
  exact dist_spec p x h

lemma rootD_lt_len (p : List Nat)
    (hE : ∀ i < p.length, p.getD i 0 < p.length) (x : Nat)
    (hx : x < p.length) : rootD p x < p.length :=
  iterP_lt_len p hE x hx _

lemma rootD_step (p : List Nat)
    (hE : ∀ i < p.length, p.getD i 0 < p.length) (x : Nat)
    (hx : x < p.length) (h : Grounded p x) :
    rootD p (p.getD x 0) = rootD p x := by
  by_cases hr : IsRoot p x
  · rw [show p.getD x 0 = x from hr]
  · have hd : dist p x h < p.length := dist_lt_len p hE x hx h
    have hg' := grounded_step p x h
    have hd' := dist_step_eq p x h hr
    have hpos : 0 < dist p x h := by
      rcases Nat.eq_zero_or_pos (dist p x h) with h0 | h0
      · exact absurd (isRoot_of_dist_eq_zero p x h h0) hr
      · exact h0
    rw [rootD_eq_iterP_dist p x h (le_of_lt hd),
        rootD_eq_iterP_dist p _ hg' (by omega), hd']
    conv_rhs => rw [show dist p x h = (dist p x h - 1) + 1 from
      (Nat.sub_add_cancel hpos).symm]
    rw [iterP_succ]

/-- Path halving (rewriting the entry of a non-root node `cur` to its
grandparent) preserves groundedness of every chain and preserves every
node's root. -/
lemma halving_preserves (p : List Nat) (cur : Nat)
    (hE : ∀ i < p.length, p.getD i 0 < p.length)
    (hG : ∀ i < p.length, Grounded p i)
    (hcur : cur < p.length) (hnr : p.getD cur 0 ≠ cur) :
    ∀ i < p.length,
      Grounded (p.set cur (p.getD (p.getD cur 0) 0)) i ∧
      rootD (p.set cur (p.getD (p.getD cur 0) 0)) i = rootD p i := by
  set gp := p.getD (p.getD cur 0) 0 with hgp
  set q := p.set cur gp with hq
  have hqlen : q.length = p.length := List.length_set p cur gp
  have hqsame : q.getD cur 0 = gp := getD_set_same p cur gp 0 hcur
  have hqdiff : ∀ i, i ≠ cur → q.getD i 0 = p.getD i 0 := fun i hi =>
    getD_set_diff p cur i gp 0 fun hc => hi hc.symm
  have hE' : ∀ i < q.length, q.getD i 0 < q.length := by
    intro i hi
    rw [hqlen] at hi ⊢
    by_cases hic : i = cur
    · rw [hic, hqsame]
      exact hE _ (hE _ hcur)
    · rw [hqdiff i hic]
      exact hE i hi
  suffices H : ∀ n i, ∀ hi : i < p.length, dist p i (hG i hi) ≤ n →
      Grounded q i ∧ rootD q i = rootD p i by
    intro i hi
    exact H (dist p i (hG i hi)) i hi le_rfl
  have hrootcase : ∀ i, IsRoot p i → Grounded q i ∧ rootD q i = rootD p i := by
    intro i hir
    have hic : i ≠ cur := fun hc => hnr (by rw [← hc]; exact hir)
    have hir' : IsRoot q i := by
      show q.getD i 0 = i
      rw [hqdiff i hic]
      exact hir
    exact ⟨⟨0, by rw [iterP_zero]; exact hir'⟩, by
      rw [rootD_of_isRoot q i hir', rootD_of_isRoot p i hir]⟩
  intro n
  induction n with
  | zero =>
    intro i hi hd
    exact hrootcase i (isRoot_of_dist_eq_zero p i (hG i hi) (Nat.le_zero.mp hd))
  | succ n ih =>
    intro i hi hd
    by_cases hir : IsRoot p i
    · exact hrootcase i hir
    · by_cases hic : i = cur
      · subst hic
        have hpc : p.getD i 0 < p.length := hE i hi
        have hgplt : gp < p.length := hE _ hpc
        have h1 : dist p (p.getD i 0) (hG _ hpc) =
            dist p i (hG i hi) - 1 := dist_step_eq p i (hG i hi) hir
        have h2 : dist p gp (hG gp hgplt) ≤ dist p (p.getD i 0) (hG _ hpc) := by
          by_cases hpcr : IsRoot p (p.getD i 0)
          · have hgppc : gp = p.getD i 0 := hpcr
            refine dist_le p gp (hG gp hgplt) ?_
            rw [hgppc]
            exact dist_spec p (p.getD i 0) (hG _ hpc)
          · have h3 : dist p gp (hG gp hgplt) =
                dist p (p.getD i 0) (hG _ hpc) - 1 :=
              dist_step_eq p (p.getD i 0) (hG _ hpc) hpcr
            omega
        have hdgp : dist p gp (hG gp hgplt) ≤ n := by omega
        obtain ⟨hGq, hRq⟩ := ih gp hgplt hdgp
        have hGqi : Grounded q i := by
          obtain ⟨k, hk⟩ := hGq
          exact ⟨k + 1, by rw [iterP_succ, hqsame]; exact hk⟩
        refine ⟨hGqi, ?_⟩
        have hstepq : rootD q (q.getD i 0) = rootD q i :=
          rootD_step q hE' i (by rw [hqlen]; exact hi) hGqi
        rw [hqsame] at hstepq
        have hsp1 : rootD p (p.getD (p.getD i 0) 0) = rootD p (p.getD i 0) :=
          rootD_step p hE (p.getD i 0) hpc (hG _ hpc)
        have hsp2 : rootD p (p.getD i 0) = rootD p i :=
          rootD_step p hE i hi (hG i hi)
        rw [← hstepq, hRq, hgp, hsp1, hsp2]
      · have hj : p.getD i 0 < p.length := hE i hi
        have hqi0 : q.getD i 0 = p.getD i 0 := hqdiff i hic
        have hdj : dist p (p.getD i 0) (hG _ hj) ≤ n := by
          have h1 : dist p (p.getD i 0) (hG _ hj) =
              dist p i (hG i hi) - 1 := dist_step_eq p i (hG i hi) hir
          have h2 : 0 < dist p i (hG i hi) := by
            rcases Nat.eq_zero_or_pos (dist p i (hG i hi)) with h0 | h0
            · exact absurd (isRoot_of_dist_eq_zero p i (hG i hi) h0) hir
            · exact h0
          omega
        obtain ⟨hGq, hRq⟩ := ih (p.getD i 0) hj hdj
        have hGqi : Grounded q i := by
          obtain ⟨k, hk⟩ := hGq
          exact ⟨k + 1, by rw [iterP_succ, hqi0]; exact hk⟩
        refine ⟨hGqi, ?_⟩
        have hstepq : rootD q (q.getD i 0) = rootD q i :=
          rootD_step q hE' i (by rw [hqlen]; exact hi) hGqi
        rw [hqi0] at hstepq
        have hsp : rootD p (p.getD i 0) = rootD p i :=
          rootD_step p hE i hi (hG i hi)
        rw [← hstepq, hRq, hsp]

/-- Linking one root under another (the state change of a successful
`union`) preserves groundedness of every chain. -/
lemma link_preserves (p : List Nat) (r1 r2 : Nat)
    (hE : ∀ i < p.length, p.getD i 0 < p.length)
    (hG : ∀ i < p.length, Grounded p i)
    (h1 : IsRoot p r1) (h2 : IsRoot p r2) (hne : r1 ≠ r2)
    (hr1 : r1 < p.length) :
    ∀ i < p.length, Grounded (p.set r1 r2) i := by
  set q := p.set r1 r2 with hq
  have hqsame : q.getD r1 0 = r2 := getD_set_same p r1 r2 0 hr1
  have hqdiff : ∀ i, i ≠ r1 → q.getD i 0 = p.getD i 0 := fun i hi =>
    getD_set_diff p r1 i r2 0 fun hc => hi hc.symm
  have hr2q : IsRoot q r2 := by
    show q.getD r2 0 = r2
    rw [hqdiff r2 (Ne.symm hne)]
    exact h2
  suffices H : ∀ n i, ∀ hi : i < p.length, dist p i (hG i hi) ≤ n →
      Grounded q i by
    intro i hi
    exact H (dist p i (hG i hi)) i hi le_rfl
  have hrootcase : ∀ i, IsRoot p i → Grounded q i := by
    intro i hir
    by_cases hir1 : i = r1
    · subst hir1
      exact ⟨1, by
        rw [show iterP q 1 i = q.getD i 0 from rfl, hqsame]
        exact hr2q⟩
    · exact ⟨0, by
        rw [iterP_zero]
        show q.getD i 0 = i
        rw [hqdiff i hir1]
        exact hir⟩
  intro n
  induction n with
  | zero =>
    intro i hi hd
    exact hrootcase i (isRoot_of_dist_eq_zero p i (hG i hi) (Nat.le_zero.mp hd))
  | succ n ih =>
    intro i hi hd
    by_cases hir : IsRoot p i
    · exact hrootcase i hir
    · have hir1 : i ≠ r1 := fun hc => hir (by rw [hc]; exact h1)
      have hj : p.getD i 0 < p.length := hE i hi
      have hdj : dist p (p.getD i 0) (hG _ hj) ≤ n := by
        have heq : dist p (p.getD i 0) (hG _ hj) =
            dist p i (hG i hi) - 1 := dist_step_eq p i (hG i hi) hir
        have hpos : 0 < dist p i (hG i hi) := by
          rcases Nat.eq_zero_or_pos (dist p i (hG i hi)) with h0 | h0
          · exact absurd (isRoot_of_dist_eq_zero p i (hG i hi) h0) hir
          · exact h0
        omega
      obtain ⟨k, hk⟩ := ih (p.getD i 0) hj hdj
      exact ⟨k + 1, by rw [iterP_succ, hqdiff i hir1]; exact hk⟩

/-- The `find` loop, run with enough fuel on a well-formed parent list,
returns the root of the starting node's chain together with a parent list
of the same length that is still well-formed and has every node's root
unchanged. -/
lemma findLoop_spec :
    ∀ fuel (p : List Nat) (cur : Nat)
      (hE : ∀ i < p.length, p.getD i 0 < p.length)
      (hG : ∀ i < p.length, Grounded p i)
      (hcur : cur < p.length),
      dist p cur (hG cur hcur) < fuel →
      ∃ p', findLoop fuel p cur = some (p', rootD p cur) ∧
        p'.length = p.length ∧
        (∀ i < p'.length, p'.getD i 0 < p'.length) ∧
        (∀ i < p'.length, Grounded p' i) ∧
        (∀ i < p.length, rootD p' i = rootD p i) := by
  intro fuel
  induction fuel with
  | zero =>
    intro p cur _hE hG hcur hfuel
    omega
  | succ fuel ih =>
    intro p cur hE hG hcur hfuel
    by_cases hroot : p.getD cur 0 = cur
    · refine ⟨p, ?_, rfl, hE, hG, fun i _ => rfl⟩
      show (if p.getD cur 0 = cur then some (p, cur)
        else findLoop fuel (p.set cur (p.getD (p.getD cur 0) 0))
          (p.getD (p.getD cur 0) 0)) = some (p, rootD p cur)
      rw [if_pos hroot, rootD_of_isRoot p cur hroot]
    · set gp := p.getD (p.getD cur 0) 0 with hgp
      set q := p.set cur gp with hq
      have hqlen : q.length = p.length := List.length_set p cur gp
      have hpc : p.getD cur 0 < p.length := hE cur hcur
      have hgplt : gp < p.length := hE _ hpc
      have hpres := halving_preserves p cur hE hG hcur hroot
      have hE' : ∀ i < q.length, q.getD i 0 < q.length := by
        intro i hi
        rw [hqlen] at hi ⊢
        by_cases hic : i = cur
        · rw [hic, getD_set_same p cur gp 0 hcur]
          exact hgplt
        · rw [getD_set_diff p cur i gp 0 fun hc => hic hc.symm]
          exact hE i hi
      have hG' : ∀ i < q.length, Grounded q i := by
        intro i hi
        exact (hpres i (by rwa [hqlen] at hi)).1
      have hcur' : gp < q.length := by rwa [hqlen]
      -- bound the fuel for the recursive call
      have hdcur_pos : 0 < dist p cur (hG cur hcur) := by
        rcases Nat.eq_zero_or_pos (dist p cur (hG cur hcur)) with h0 | h0
        · exact absurd (isRoot_of_dist_eq_zero p cur (hG cur hcur) h0) hroot
        · exact h0
      have h1 : dist p (p.getD cur 0) (hG _ hpc) =
          dist p cur (hG cur hcur) - 1 := dist_step_eq p cur (hG cur hcur) hroot
      have h2 : dist p gp (hG gp hgplt) ≤ dist p (p.getD cur 0) (hG _ hpc) := by
        by_cases hpcr : IsRoot p (p.getD cur 0)
        · have hgppc : gp = p.getD cur 0 := hpcr
          refine dist_le p gp (hG gp hgplt) ?_
          rw [hgppc]
          exact dist_spec p (p.getD cur 0) (hG _ hpc)
        · have h3 : dist p gp (hG gp hgplt) =
              dist p (p.getD cur 0) (hG _ hpc) - 1 :=
            dist_step_eq p (p.getD cur 0) (hG _ hpc) hpcr
          omega
      -- dist in q is at most dist in p for gp: the chain of gp avoids cur
      have hdq : dist q gp (hG' gp hcur') ≤ dist p gp (hG gp hgplt) := by
        refine dist_le q gp (hG' gp hcur') ?_
        have havoid : ∀ j < dist p gp (hG gp hgplt) + 1, iterP p j gp ≠ cur := by
          intro j hjlt heq
          -- iterP p j gp = iterP p (j + 2) cur, and cur = iterP p 0 cur
          have hiter : iterP p j gp = iterP p (j + 2) cur := by
            have : iterP p 2 cur = gp := by
              rw [show (2 : Nat) = 1 + 1 from rfl, iterP_succ, iterP_succ,
                iterP_zero]
            rw [← this, ← iterP_add]
          by_cases hpcr : IsRoot p (p.getD cur 0)
          · -- chain: cur → pc = gp, dist cur = 1; iterP j gp = gp = pc ≠ cur
            have hgppc : gp = p.getD cur 0 := hpcr
            have : iterP p j gp = gp := by
              rw [hgppc]
              exact isRoot_iterP p _ hpcr j
            rw [this] at heq
            exact hroot (by rw [← hgppc, heq])
          · have hj2 : j + 2 ≤ dist p cur (hG cur hcur) := by
              have h3 : dist p gp (hG gp hgplt) =
                  dist p (p.getD cur 0) (hG _ hpc) - 1 :=
                dist_step_eq p (p.getD cur 0) (hG _ hpc) hpcr
              have hpcpos : 0 < dist p (p.getD cur 0) (hG _ hpc) := by
                rcases Nat.eq_zero_or_pos
                    (dist p (p.getD cur 0) (hG _ hpc)) with h0 | h0
                · exact absurd (isRoot_of_dist_eq_zero p _ (hG _ hpc) h0) hpcr
                · exact h0
              omega
            have hne := iterP_ne_of_lt_dist p cur (hG cur hcur)
              (Nat.succ_pos (j + 1)) hj2
            rw [iterP_zero] at hne
            exact hne (by rw [← hiter, heq])
        have hiterq : iterP q (dist p gp (hG gp hgplt)) gp =
            iterP p (dist p gp (hG gp hgplt)) gp := by
          rw [hq]
          exact iterP_set_avoid p cur gp gp fun j hj =>
            havoid j (Nat.lt_succ_of_lt hj)
        show IsRoot q (iterP q (dist p gp (hG gp hgplt)) gp)
        rw [hiterq]
        have hrootp : IsRoot p (iterP p (dist p gp (hG gp hgplt)) gp) :=
          dist_spec p gp (hG gp hgplt)
        have hnecur : iterP p (dist p gp (hG gp hgplt)) gp ≠ cur :=
          havoid _ (Nat.lt_succ_self _)
        show q.getD _ 0 = _
        rw [hq, getD_set_diff p cur _ gp 0 fun hc => hnecur hc.symm]
        exact hrootp
      have hfuel' : dist q gp (hG' gp hcur') < fuel := by omega
      obtain ⟨p', heq, hlen', hE2, hG2, hroots⟩ := ih q gp hE' hG' hcur' hfuel'
      refine ⟨p', ?_, by rw [hlen', hqlen], hE2, hG2, ?_⟩
      · show (if p.getD cur 0 = cur then some (p, cur)
          else findLoop fuel (p.set cur (p.getD (p.getD cur 0) 0))
            (p.getD (p.getD cur 0) 0)) = some (p', rootD p cur)
        rw [if_neg hroot, ← hgp, ← hq, heq]
        -- rootD q gp = rootD p gp = rootD p cur
        have hr1 : rootD q gp = rootD p gp := (hpres gp hgplt).2
        have hr2 : rootD p gp = rootD p (p.getD cur 0) := by
          rw [hgp]
          exact rootD_step p hE (p.getD cur 0) hpc (hG _ hpc)
        have hr3 : rootD p (p.getD cur 0) = rootD p cur :=
          rootD_step p hE cur hcur (hG cur hcur)
        rw [hr1, hr2, hr3]
      · intro i hi
        have hi' : i < q.length := by rwa [hqlen]
        rw [hroots i hi', (hpres i hi).2]

lemma findLoop_returns_root :
    ∀ fuel (p : List Nat) (cur : Nat) (p' : List Nat) (r : Nat),
      findLoop fuel p cur = some (p', r) → p'.getD r 0 = r := by
  intro fuel
  induction fuel with
  | zero => intro p cur p' r h; cases h
  | succ fuel ih =>
    intro p cur p' r h
    by_cases hroot : p.getD cur 0 = cur
    · have : some (p, cur) = some (p', r) := by
        rw [← h]
        show some (p, cur) = if p.getD cur 0 = cur then some (p, cur) else _
        rw [if_pos hroot]
      injection this with this
      injection this with h1 h2
      subst h1; subst h2
      exact hroot
    · have : findLoop fuel (p.set cur (p.getD (p.getD cur 0) 0))
          (p.getD (p.getD cur 0) 0) = some (p', r) := by
        rw [← h]
        show _ = if p.getD cur 0 = cur then some (p, cur) else _
        rw [if_neg hroot]
      exact ih _ _ _ _ this

lemma findLoop_preserves_selfparent :
    ∀ fuel (p : List Nat) (cur : Nat) (p' : List Nat) (r : Nat),
      findLoop fuel p cur = some (p', r) →
      ∀ s, p.getD s 0 = s → p'.getD s 0 = s := by
  intro fuel
  induction fuel with
  | zero => intro p cur p' r h; cases h
  | succ fuel ih =>
    intro p cur p' r h s hs
    by_cases hroot : p.getD cur 0 = cur
    · have : some (p, cur) = some (p', r) := by
        rw [← h]
        show some (p, cur) = if p.getD cur 0 = cur then some (p, cur) else _
        rw [if_pos hroot]
      injection this with this
      injection this with h1 _
      subst h1
      exact hs
    · have hrec : findLoop fuel (p.set cur (p.getD (p.getD cur 0) 0))
          (p.getD (p.getD cur 0) 0) = some (p', r) := by
        rw [← h]
        show _ = if p.getD cur 0 = cur then some (p, cur) else _
        rw [if_neg hroot]
      have hscur : s ≠ cur := fun hc => hroot (by rw [← hc]; exact hs)
      refine ih _ _ _ _ hrec s ?_
      rw [getD_set_diff p cur s _ 0 fun hc => hscur hc.symm]
      exact hs

lemma findLoop_length :
    ∀ fuel (p : List Nat) (cur : Nat) (p' : List Nat) (r : Nat),
      findLoop fuel p cur = some (p', r) → p'.length = p.length := by
  intro fuel
  induction fuel with
  | zero => intro p cur p' r h; cases h
  | succ fuel ih =>
    intro p cur p' r h
    by_cases hroot : p.getD cur 0 = cur
    · have : some (p, cur) = some (p', r) := by
        rw [← h]
        show some (p, cur) = if p.getD cur 0 = cur then some (p, cur) else _
        rw [if_pos hroot]
      injection this with this
      injection this with h1 _
      subst h1
      rfl
    · have hrec : findLoop fuel (p.set cur (p.getD (p.getD cur 0) 0))
          (p.getD (p.getD cur 0) 0) = some (p', r) := by
        rw [← h]
        show _ = if p.getD cur 0 = cur then some (p, cur) else _
        rw [if_neg hroot]
      rw [ih _ _ _ _ hrec, List.length_set]

lemma pyIndex_lt (len : Nat) (x : Int) (k : Nat)
    (h : pyIndex len x = some k) : k < len := by
  unfold pyIndex at h
  split_ifs at h with h1 h2
  · injection h with h
    omega
  · injection h with h
    omega

lemma pyIndex_pos (len : Nat) (x : Int) (k : Nat)
    (h : pyIndex len x = some k) : 0 < len := by
  unfold pyIndex at h
  split_ifs at h with h1 h2
  · omega
  · omega

lemma pyIndex_nat (len : Nat) (x : Nat) (hx : x < len) :
    pyIndex len (x : Int) = some x := by
  unfold pyIndex
  rw [if_pos ⟨Int.natCast_nonneg x, by exact_mod_cast hx⟩]
  simp

/-- Facts available from any successful `find`, with no well-formedness
assumption: the size list and the parent-list length are unchanged, the
returned value is a root of the updated parent list, it is in range, and
every node that was its own parent still is. -/
lemma find_some_facts (uf uf' : UnionFind) (x : Int) (r : Nat)
    (h : uf.find x = some (uf', r)) :
    uf'.rank = uf.rank ∧ uf'.parent.length = uf.parent.length ∧
    IsRoot uf'.parent r ∧ r < uf'.parent.length ∧
    (∀ s, IsRoot uf.parent s → IsRoot uf'.parent s) := by
  unfold UnionFind.find at h
  cases hpy : pyIndex uf.parent.length x with
  | none => rw [hpy] at h; cases h
  | some k =>
    simp only [hpy] at h
    cases hloop : findLoop (uf.parent.length + 1) uf.parent
        (uf.parent.getD k 0) with
    | none =>
      simp only [hloop] at h
      exact Option.noConfusion h
    | some pr =>
      obtain ⟨p', r'⟩ := pr
      simp only [hloop] at h
      injection h with h
      injection h with h1 h2
      subst h2
      have hrank : uf'.rank = uf.rank := by rw [← h1]
      have hpar : uf'.parent = p' := by rw [← h1]
      have hlen := findLoop_length _ _ _ _ _ hloop
      have hroot := findLoop_returns_root _ _ _ _ _ hloop
      have hpos := pyIndex_pos _ _ _ hpy
      have hrlt : r' < p'.length := by
        by_contra hge
        push_neg at hge
        have : p'.getD r' 0 = 0 := by
          rw [List.getD_eq_getElem?_getD, List.getElem?_eq_none hge]
          rfl
        rw [this] at hroot
        omega
      refine ⟨hrank, by rw [hpar, hlen], by rw [hpar]; exact hroot,
        by rw [hpar]; exact hrlt, ?_⟩
      intro s hs
      rw [hpar]
      exact findLoop_preserves_selfparent _ _ _ _ _ hloop s hs

/-- `find` on an in-range node of a well-formed state: it succeeds,
returns the node's root, path-halves the parent list without changing any
node's root, keeps the size list, and preserves well-formedness. -/
lemma find_spec_nat (uf : UnionFind) (hI : UFInv uf) (x : Nat)
    (hx : x < uf.parent.length) :
    ∃ p', uf.find (x : Int) =
        some (⟨p', uf.rank⟩, rootD uf.parent x) ∧
      UFInv ⟨p', uf.rank⟩ ∧ p'.length = uf.parent.length ∧
      (∀ i < uf.parent.length, rootD p' i = rootD uf.parent i) ∧
      rootD uf.parent x < uf.parent.length ∧ IsRoot p' (rootD uf.parent x) := by
  obtain ⟨hrlen, hE, hG⟩ := hI
  have hcur : uf.parent.getD x 0 < uf.parent.length := hE x hx
  have hdist : dist uf.parent (uf.parent.getD x 0) (hG _ hcur) <
      uf.parent.length + 1 := by
    have := dist_lt_len uf.parent hE _ hcur (hG _ hcur)
    omega
  obtain ⟨p', heq, hlen, hE', hG', hroots⟩ :=
    findLoop_spec (uf.parent.length + 1) uf.parent (uf.parent.getD x 0)
      hE hG hcur hdist
  have hstep : rootD uf.parent (uf.parent.getD x 0) = rootD uf.parent x :=
    rootD_step uf.parent hE x hx (hG x hx)
  have hfind : uf.find (x : Int) = some (⟨p', uf.rank⟩, rootD uf.parent x) := by
    unfold UnionFind.find
    rw [pyIndex_nat _ x hx]
    simp only [heq, hstep]
  have hrootx : rootD uf.parent x < uf.parent.length :=
    rootD_lt_len uf.parent hE x hx
  have hrootx' : IsRoot p' (rootD uf.parent x) := by
    have h1 := findLoop_returns_root _ _ _ _ _ heq
    rwa [hstep] at h1
  refine ⟨p', hfind, ⟨?_, ?_, ?_⟩, hlen, fun i hi => hroots i hi, hrootx,
    hrootx'⟩
  · show uf.rank.length = p'.length
    rw [hlen, hrlen]
  · intro i hi
    exact hE' i hi
  · intro i hi
    exact hG' i hi

/-- A successful `find` (with any integer argument) preserves
well-formedness, the size list, the parent-list length and every node's
root; the returned value is an in-range root. -/
lemma find_preserves_inv (uf uf' : UnionFind) (x : Int) (r : Nat)
    (hI : UFInv uf) (h : uf.find x = some (uf', r)) :
    UFInv uf' ∧ uf'.rank = uf.rank ∧
    uf'.parent.length = uf.parent.length ∧
    (∀ i < uf.parent.length, rootD uf'.parent i = rootD uf.parent i) ∧
    r < uf.parent.length ∧ IsRoot uf'.parent r := by
  obtain ⟨hrlen, hE, hG⟩ := hI
  unfold UnionFind.find at h
  cases hpy : pyIndex uf.parent.length x with
  | none => rw [hpy] at h; cases h
  | some k =>
    simp only [hpy] at h
    have hk : k < uf.parent.length := pyIndex_lt _ _ _ hpy
    have hcur : uf.parent.getD k 0 < uf.parent.length := hE k hk
    have hdist : dist uf.parent (uf.parent.getD k 0) (hG _ hcur) <
        uf.parent.length + 1 := by
      have := dist_lt_len uf.parent hE _ hcur (hG _ hcur)
      omega
    obtain ⟨p', heq, hlen, hE', hG', hroots⟩ :=
      findLoop_spec (uf.parent.length + 1) uf.parent (uf.parent.getD k 0)
        hE hG hcur hdist
    rw [heq] at h
    injection h with h
    injection h with h1 h2
    have hpar : uf'.parent = p' := by rw [← h1]
    have hrank : uf'.rank = uf.rank := by rw [← h1]
    have hstep : rootD uf.parent (uf.parent.getD k 0) = rootD uf.parent k :=
      rootD_step uf.parent hE k hk (hG k hk)
    refine ⟨⟨?_, ?_, ?_⟩, hrank, by rw [hpar, hlen], ?_, ?_, ?_⟩
    · rw [hpar, hrank, hlen, hrlen]
    · rw [hpar]; exact hE'
    · rw [hpar]; exact hG'
    · intro i hi
      rw [hpar]
      exact hroots i hi
    · rw [← h2, hstep]
      exact rootD_lt_len uf.parent hE k hk
    · rw [hpar, ← h2]
      exact findLoop_returns_root _ _ _ _ _ heq

/-- A successful `union` preserves well-formedness. -/
lemma union_preserves_inv (uf uf' : UnionFind) (a b : Int) (t : Bool)
    (hI : UFInv uf) (h : uf.union a b = some (uf', t)) : UFInv uf' := by
  unfold UnionFind.union at h
  cases hfa : uf.find a with
  | none => rw [hfa] at h; cases h
  | some s1 =>
    obtain ⟨uf1, r1⟩ := s1
    simp only [hfa] at h
    obtain ⟨hI1, hrank1, hlen1, _, hr1lt, hr1root⟩ :=
      find_preserves_inv uf uf1 a r1 hI hfa
    cases hfb : uf1.find b with
    | none => rw [hfb] at h; cases h
    | some s2 =>
      obtain ⟨uf2, r2⟩ := s2
      simp only [hfb] at h
      obtain ⟨hI2, hrank2, hlen2, _, hr2lt, hr2root⟩ :=
        find_preserves_inv uf1 uf2 b r2 hI1 hfb
      obtain ⟨hrlen2, hE2, hG2⟩ := hI2
      have hr1root2 : IsRoot uf2.parent r1 :=
        (find_some_facts uf1 uf2 b r2 hfb).2.2.2.2 r1 hr1root
      have hr1lt2 : r1 < uf2.parent.length := by omega
      have hr2lt2 : r2 < uf2.parent.length := by omega
      by_cases hr12 : r1 = r2
      · rw [if_pos hr12] at h
        injection h with h
        injection h with h1 _
        rw [← h1]
        exact ⟨hrlen2, hE2, hG2⟩
      · rw [if_neg hr12] at h
        by_cases hlt : uf2.rank.getD r2 0 < uf2.rank.getD r1 0
        · rw [if_pos hlt] at h
          injection h with h
          injection h with h1 _
          rw [← h1]
          refine ⟨?_, ?_, ?_⟩
          · show (uf2.rank.set r1 _).length = (uf2.parent.set r2 r1).length
            rw [List.length_set, List.length_set, hrlen2]
          · intro i hi
            rw [List.length_set] at hi ⊢
            by_cases hir : i = r2
            · rw [hir, getD_set_same _ _ _ _ hr2lt2]
              exact hr1lt2
            · rw [getD_set_diff _ _ _ _ _ fun hc => hir hc.symm]
              exact hE2 i hi
          · intro i hi
            rw [List.length_set] at hi
            exact link_preserves uf2.parent r2 r1 hE2 hG2 hr2root hr1root2
              (Ne.symm hr12) hr2lt2 i hi
        · rw [if_neg hlt] at h
          injection h with h
          injection h with h1 _
          rw [← h1]
          refine ⟨?_, ?_, ?_⟩
          · show (uf2.rank.set r2 _).length = (uf2.parent.set r1 r2).length
            rw [List.length_set, List.length_set, hrlen2]
          · intro i hi
            rw [List.length_set] at hi ⊢
            by_cases hir : i = r1
            · rw [hir, getD_set_same _ _ _ _ hr1lt2]
              exact hr2lt2
            · rw [getD_set_diff _ _ _ _ _ fun hc => hir hc.symm]
              exact hE2 i hi
          · intro i hi
            rw [List.length_set] at hi
            exact link_preserves uf2.parent r1 r2 hE2 hG2 hr1root2 hr2root
              hr12 hr1lt2 i hi

/-- Every reachable union-find state is well-formed. -/
lemma reachable_inv (uf : UnionFind) (hR : Reachable uf) : UFInv uf := by
  induction hR with
  | init n =>
    have hplen : (UnionFind.init n).parent = List.range n := rfl
    refine ⟨?_, ?_, ?_⟩
    · show (List.replicate n 1).length = (List.range n).length
      rw [List.length_replicate, List.length_range]
    · intro i hi
      have hi' : i < n := by
        rw [hplen, List.length_range] at hi
        exact hi
      rw [hplen, getD_range_lt n i hi', List.length_range]
      exact hi'
    · intro i hi
      have hi' : i < n := by
        rw [hplen, List.length_range] at hi
        exact hi
      exact ⟨0, by
        rw [iterP_zero]
        show (UnionFind.init n).parent.getD i 0 = i
        rw [hplen]
        exact getD_range_lt n i hi'⟩
  | findStep hRuf hfind ih =>
    exact (find_preserves_inv _ _ _ _ ih hfind).1
  | unionStep hRuf hunion ih =>
    exact union_preserves_inv _ _ _ _ _ ih hunion

/-- C10: on every reachable union-find state, `find` on an in-range node
succeeds and is idempotent: the returned value is a root (its stored
parent is itself), and calling `find` again on it returns the same root
and changes nothing. -/
theorem find_idempotent_on_reachable (uf : UnionFind) (hR : Reachable uf)
    (x : Nat) (hx : x < uf.parent.length) :
    ∃ uf' r, uf.find (x : Int) = some (uf', r) ∧
      uf'.parent.getD r 0 = r ∧ uf'.find (r : Int) = some (uf', r) := by
  obtain ⟨p', hfind, hI', hlen, _, hrlt, hroot⟩ :=
    find_spec_nat uf (reachable_inv uf hR) x hx
  refine ⟨⟨p', uf.rank⟩, rootD uf.parent x, hfind, hroot, ?_⟩
  unfold UnionFind.find
  have hrlt' : rootD uf.parent x < (⟨p', uf.rank⟩ : UnionFind).parent.length := by
    show rootD uf.parent x < p'.length
    rw [hlen]
    exact hrlt
  rw [pyIndex_nat _ _ hrlt']
  show (match findLoop (p'.length + 1) p' (p'.getD (rootD uf.parent x) 0) with
    | none => none
    | some (p, r) => some (({ parent := p, rank := uf.rank } : UnionFind), r)) =
    some (⟨p', uf.rank⟩, rootD uf.parent x)
  rw [show p'.getD (rootD uf.parent x) 0 = rootD uf.parent x from hroot]
  have hloop : findLoop (p'.length + 1) p' (rootD uf.parent x) =
      some (p', rootD uf.parent x) := by
    show (if p'.getD (rootD uf.parent x) 0 = rootD uf.parent x
      then some (p', rootD uf.parent x)
      else findLoop p'.length
        (p'.set (rootD uf.parent x)
          (p'.getD (p'.getD (rootD uf.parent x) 0) 0))
        (p'.getD (p'.getD (rootD uf.parent x) 0) 0)) =
      some (p', rootD uf.parent x)
    rw [if_pos (show p'.getD (rootD uf.parent x) 0 = rootD uf.parent x
      from hroot)]
  rw [hloop]

/-- Witness for the `find` idempotence theorem at the freshly built
two-element structure and node `0`. -/
theorem find_idempotent_on_reachable_witness :
    ∃ uf' r, (UnionFind.init 2).find ((0 : Nat) : Int) = some (uf', r) ∧
      uf'.parent.getD r 0 = r ∧ uf'.find ((r : Nat) : Int) = some (uf', r) :=
  find_idempotent_on_reachable (UnionFind.init 2) (Reachable.init 2) 0
    (by decide)

/-- C8 amended: on a well-formed state, `union` of two in-range nodes
that already share a root returns `False`, keeps the size list, keeps the
parent-list length, and leaves every node's root — the partition —
unchanged (the parent entries themselves may be path-halved). -/
theorem union_same_set_no_semantic_change (uf : UnionFind) (hI : UFInv uf)
    (a b : Nat) (ha : a < uf.parent.length) (hb : b < uf.parent.length)
    (hsame : rootD uf.parent a = rootD uf.parent b) :
    ∃ uf', uf.union (a : Int) (b : Int) = some (uf', false) ∧
      uf'.rank = uf.rank ∧ uf'.parent.length = uf.parent.length ∧
      ∀ i < uf.parent.length, rootD uf'.parent i = rootD uf.parent i := by
  obtain ⟨p1, hfind1, hI1, hlen1, hroots1, hr1lt, hr1root⟩ :=
    find_spec_nat uf hI a ha
  have hb1 : b < (⟨p1, uf.rank⟩ : UnionFind).parent.length := by
    show b < p1.length
    rw [hlen1]
    exact hb
  obtain ⟨p2, hfind2, hI2, hlen2, hroots2, hr2lt, hr2root⟩ :=
    find_spec_nat ⟨p1, uf.rank⟩ hI1 b hb1
  have hr2eq : rootD p1 b = rootD uf.parent a := by
    rw [hroots1 b hb, hsame]
  refine ⟨⟨p2, uf.rank⟩, ?_, rfl, ?_, ?_⟩
  · unfold UnionFind.union
    rw [hfind1]
    simp only [hfind2]
    rw [if_pos hr2eq.symm]
  · show p2.length = uf.parent.length
    rw [hlen2]
    exact hlen1
  · intro i hi
    show rootD p2 i = rootD uf.parent i
    have hi1 : i < p1.length := by rwa [hlen1]
    rw [hroots2 i hi1]
    exact hroots1 i hi

/-- Witness for the same-set `union` theorem: `union(0, 0)` on the fresh
two-element structure. -/
theorem union_same_set_no_semantic_change_witness :
    ∃ uf', (UnionFind.init 2).union ((0 : Nat) : Int) ((0 : Nat) : Int) =
        some (uf', false) ∧
      uf'.rank = (UnionFind.init 2).rank ∧
      uf'.parent.length = (UnionFind.init 2).parent.length ∧
      ∀ i < (UnionFind.init 2).parent.length,
        rootD uf'.parent i = rootD (UnionFind.init 2).parent i :=
  union_same_set_no_semantic_change (UnionFind.init 2)
    (reachable_inv _ (Reachable.init 2)) 0 0 (by decide) (by decide) rfl

lemma findLoop_init_at (n k : Nat) (fuel : Nat) (hk : k < n) :
    findLoop (fuel + 1) (List.range n) k = some (List.range n, k) := by
  show (if (List.range n).getD k 0 = k then some (List.range n, k)
    else findLoop fuel
      ((List.range n).set k
        ((List.range n).getD ((List.range n).getD k 0) 0))
      ((List.range n).getD ((List.range n).getD k 0) 0)) =
    some (List.range n, k)
  rw [if_pos (getD_range_lt n k hk)]

/-- C9 amended: `find` on a freshly constructed structure of a given size
fails with an index error exactly when the integer argument is at or above
`size` or below `-size`; for `0 ≤ x < size` it succeeds and returns node
`x` (its own root), and for `-size ≤ x < 0` Python indexing wraps and it
succeeds returning node `size + x`. -/
theorem find_init_index_semantics (n : Nat) (x : Int) :
    ((x < -(n : Int) ∨ (n : Int) ≤ x) → (UnionFind.init n).find x = none) ∧
    (0 ≤ x → x < (n : Int) →
      (UnionFind.init n).find x = some (UnionFind.init n, x.toNat)) ∧
    (-(n : Int) ≤ x → x < 0 →
      (UnionFind.init n).find x =
        some (UnionFind.init n, ((n : Int) + x).toNat)) := by
  have hplen : (UnionFind.init n).parent = List.range n := rfl
  have hlen : (UnionFind.init n).parent.length = n := by
    rw [hplen, List.length_range]
  refine ⟨?_, ?_, ?_⟩
  · intro hout
    unfold UnionFind.find
    have hpy : pyIndex (UnionFind.init n).parent.length x = none := by
      rw [hlen]
      unfold pyIndex
      rw [if_neg (by omega), if_neg (by omega)]
    rw [hpy]
  · intro h0 hn
    unfold UnionFind.find
    have hpy : pyIndex (UnionFind.init n).parent.length x = some x.toNat := by
      rw [hlen]
      unfold pyIndex
      rw [if_pos ⟨h0, hn⟩]
    rw [hpy]
    have hklt : x.toNat < n := by omega
    have hcur : (UnionFind.init n).parent.getD x.toNat 0 = x.toNat := by
      rw [hplen]
      exact getD_range_lt n x.toNat hklt
    show (match findLoop ((UnionFind.init n).parent.length + 1)
        (UnionFind.init n).parent
        ((UnionFind.init n).parent.getD x.toNat 0) with
      | none => none
      | some (p, r) =>
        some (({ parent := p, rank := (UnionFind.init n).rank } :
          UnionFind), r)) = some (UnionFind.init n, x.toNat)
    rw [hcur, hlen, hplen, findLoop_init_at n x.toNat n hklt]
    rfl
  · intro hge hlt
    unfold UnionFind.find
    have hpy : pyIndex (UnionFind.init n).parent.length x =
        some ((n : Int) + x).toNat := by
      rw [hlen]
      unfold pyIndex
      rw [if_neg (by omega), if_pos ⟨by omega, hlt⟩]
    rw [hpy]
    have hklt : ((n : Int) + x).toNat < n := by omega
    have hcur : (UnionFind.init n).parent.getD ((n : Int) + x).toNat 0 =
        ((n : Int) + x).toNat := by
      rw [hplen]
      exact getD_range_lt n _ hklt
    show (match findLoop ((UnionFind.init n).parent.length + 1)
        (UnionFind.init n).parent
        ((UnionFind.init n).parent.getD ((n : Int) + x).toNat 0) with
      | none => none
      | some (p, r) =>
        some (({ parent := p, rank := (UnionFind.init n).rank } :
          UnionFind), r)) = some (UnionFind.init n, ((n : Int) + x).toNat)
    rw [hcur, hlen, hplen, findLoop_init_at n _ n hklt]
    rfl

/-- Witness for the index-semantics theorem at size 2 and the arguments
`5` (fails), `1` (in range) and `-2` (negative wrap to node 0). -/
theorem find_init_index_semantics_witness :
    (UnionFind.init 2).find 5 = none ∧
    (UnionFind.init 2).find 1 = some (UnionFind.init 2, (1 : Int).toNat) ∧
    (UnionFind.init 2).find (-2) =
      some (UnionFind.init 2, ((2 : Int) + (-2)).toNat) :=
  ⟨(find_init_index_semantics 2 5).1 (Or.inr (by decide)),
   (find_init_index_semantics 2 1).2.1 (by decide) (by decide),
   (find_init_index_semantics 2 (-2)).2.2 (by decide) (by decide)⟩

/-- C7: when the two `find` calls inside `union` return different roots
with different recorded sizes, `union` attaches the root of strictly
smaller recorded size under the root of strictly larger recorded size,
the larger root stays its own parent (so the larger set's representative
represents the merged set), the merged root's recorded size becomes the
sum of the two sizes, and the call returns `True`. -/
theorem union_by_size_attaches_smaller (uf uf1 uf2 : UnionFind)
    (a b : Int) (r1 r2 : Nat)
    (h1 : uf.find a = some (uf1, r1)) (h2 : uf1.find b = some (uf2, r2))
    (hsize : uf2.rank.getD r1 0 ≠ uf2.rank.getD r2 0) :
    ∃ uf' small large, uf.union a b = some (uf', true) ∧
      ({small, large} : Finset Nat) = {r1, r2} ∧
      uf2.rank.getD small 0 < uf2.rank.getD large 0 ∧
      uf'.parent = uf2.parent.set small large ∧
      uf'.parent.getD large 0 = large ∧
      uf'.rank = uf2.rank.set large
        (uf2.rank.getD large 0 + uf2.rank.getD small 0) := by
  have hr12 : r1 ≠ r2 := fun hc => hsize (by rw [hc])
  obtain ⟨_, _, hr2root, hr2lt, hpres⟩ := find_some_facts uf1 uf2 b r2 h2
  have hr1root1 : IsRoot uf1.parent r1 :=
    (find_some_facts uf uf1 a r1 h1).2.2.1
  have hr1root : IsRoot uf2.parent r1 := hpres r1 hr1root1
  unfold UnionFind.union
  rw [h1]
  simp only [h2]
  rw [if_neg hr12]
  by_cases hlt : uf2.rank.getD r2 0 < uf2.rank.getD r1 0
  · rw [if_pos hlt]
    refine ⟨_, r2, r1, rfl, Finset.pair_comm r2 r1, hlt, rfl, ?_, ?_⟩
    · show (uf2.parent.set r2 r1).getD r1 0 = r1
      rw [getD_set_diff _ _ _ _ _ hr12.symm]
      exact hr1root
    · rfl
  · rw [if_neg hlt]
    have hlt' : uf2.rank.getD r1 0 < uf2.rank.getD r2 0 := by omega
    refine ⟨_, r1, r2, rfl, rfl, hlt', rfl, ?_, ?_⟩
    · show (uf2.parent.set r1 r2).getD r2 0 = r2
      rw [getD_set_diff _ _ _ _ _ hr12]
      exact hr2root
    · rfl

/-- Witness for the union-by-size theorem: in the three-element state
with parent `[1, 1, 2]` and sizes `[1, 2, 1]`, `union(2, 1)` finds roots
`2` (size 1) and `1` (size 2) and attaches `2` under `1`. -/
theorem union_by_size_attaches_smaller_witness :
    ∃ uf' small large,
      UnionFind.union ⟨[1, 1, 2], [1, 2, 1]⟩ 2 1 = some (uf', true) ∧
      ({small, large} : Finset Nat) = {2, 1} ∧
      (⟨[1, 1, 2], [1, 2, 1]⟩ : UnionFind).rank.getD small 0 <
        (⟨[1, 1, 2], [1, 2, 1]⟩ : UnionFind).rank.getD large 0 ∧
      uf'.parent = (⟨[1, 1, 2], [1, 2, 1]⟩ : UnionFind).parent.set small
        large ∧
      uf'.parent.getD large 0 = large ∧
      uf'.rank = (⟨[1, 1, 2], [1, 2, 1]⟩ : UnionFind).rank.set large
        ((⟨[1, 1, 2], [1, 2, 1]⟩ : UnionFind).rank.getD large 0 +
          (⟨[1, 1, 2], [1, 2, 1]⟩ : UnionFind).rank.getD small 0) :=
  union_by_size_attaches_smaller ⟨[1, 1, 2], [1, 2, 1]⟩
    ⟨[1, 1, 2], [1, 2, 1]⟩ ⟨[1, 1, 2], [1, 2, 1]⟩ 2 1 2 1
    (by decide) (by decide) (by decide)

lemma getD_isSome_lt (l : List (Option Edge)) (c : Nat) (e : Edge)
    (h : l.getD c none = some e) : c < l.length := by
  by_contra hge
  push_neg at hge
  rw [List.getD_eq_getElem?_getD, List.getElem?_eq_none hge] at h
  exact Option.noConfusion h

lemma updateSlotA_length (slots : List (Option Edge)) (c : Nat) (e : Edge) :
    (VariantA.updateSlot slots c e).length = slots.length := by
  unfold VariantA.updateSlot
  cases hh : slots.getD c none with
  | none => exact List.length_set slots c (some e)
  | some e' =>
    show (if e.2.2 < e'.2.2 then slots.set c (some e) else slots).length =
      slots.length
    by_cases hlt : e.2.2 < e'.2.2
    · rw [if_pos hlt]
      exact List.length_set slots c (some e)
    · rw [if_neg hlt]

lemma updateSlotA_getD_ne (slots : List (Option Edge)) (c c' : Nat)
    (e : Edge) (h : c' ≠ c) :
    (VariantA.updateSlot slots c e).getD c' none = slots.getD c' none := by
  unfold VariantA.updateSlot
  cases hh : slots.getD c none with
  | none => exact getD_set_diff slots c c' (some e) none fun hc => h hc.symm
  | some e' =>
    show (if e.2.2 < e'.2.2 then slots.set c (some e) else slots).getD c'
      none = slots.getD c' none
    by_cases hlt : e.2.2 < e'.2.2
    · rw [if_pos hlt]
      exact getD_set_diff slots c c' (some e) none fun hc => h hc.symm
    · rw [if_neg hlt]

lemma updateSlotA_getD_self (slots : List (Option Edge)) (c : Nat)
    (e : Edge) :
    (VariantA.updateSlot slots c e).getD c none = some e ∨
    (VariantA.updateSlot slots c e).getD c none = slots.getD c none := by
  unfold VariantA.updateSlot
  cases hh : slots.getD c none with
  | none =>
    show (slots.set c (some e)).getD c none = some e ∨
      (slots.set c (some e)).getD c none = none
    by_cases hc : c < slots.length
    · left
      exact getD_set_same slots c (some e) none hc
    · right
      push_neg at hc
      rw [List.getD_eq_getElem?_getD, List.getElem?_set]
      rw [if_pos rfl, if_neg (by omega)]
      rfl
  | some e' =>
    show (if e.2.2 < e'.2.2 then slots.set c (some e) else slots).getD c
        none = some e ∨
      (if e.2.2 < e'.2.2 then slots.set c (some e) else slots).getD c
        none = some e'
    by_cases hlt : e.2.2 < e'.2.2
    · left
      rw [if_pos hlt]
      exact getD_set_same slots c (some e) none (getD_isSome_lt slots c e' hh)
    · right
      rw [if_neg hlt]
      exact hh

lemma updateSlotA_getD_self_ne_none (slots : List (Option Edge)) (c : Nat)
    (e : Edge) (hc : c < slots.length) :
    (VariantA.updateSlot slots c e).getD c none ≠ none := by
  unfold VariantA.updateSlot
  cases hh : slots.getD c none with
  | none =>
    show (slots.set c (some e)).getD c none ≠ none
    rw [getD_set_same slots c (some e) none hc]
    exact Option.noConfusion
  | some e' =>
    show (if e.2.2 < e'.2.2 then slots.set c (some e) else slots).getD c
      none ≠ none
    by_cases hlt : e.2.2 < e'.2.2
    · rw [if_pos hlt, getD_set_same slots c (some e) none hc]
      exact Option.noConfusion
    · rw [if_neg hlt, hh]
      exact Option.noConfusion

lemma updateStepA_length (comp : List Nat) (slots : List (Option Edge))
    (e : Edge) :
    (VariantA.updateMinEdgeStep comp slots e).length = slots.length := by
  unfold VariantA.updateMinEdgeStep
  by_cases h : comp.getD e.1 0 ≠ comp.getD e.2.1 0
  · rw [if_pos h, updateSlotA_length, updateSlotA_length]
  · rw [if_neg h]

lemma updateStepA_getD_cases (comp : List Nat) (slots : List (Option Edge))
    (e : Edge) (c : Nat) :
    (VariantA.updateMinEdgeStep comp slots e).getD c none =
      slots.getD c none ∨
    ((VariantA.updateMinEdgeStep comp slots e).getD c none = some e ∧
      comp.getD e.1 0 ≠ comp.getD e.2.1 0 ∧
      (comp.getD e.1 0 = c ∨ comp.getD e.2.1 0 = c)) := by
  unfold VariantA.updateMinEdgeStep
  by_cases hcross : comp.getD e.1 0 ≠ comp.getD e.2.1 0
  · rw [if_pos hcross]
    by_cases hc2 : comp.getD e.2.1 0 = c
    · subst hc2
      rcases updateSlotA_getD_self (VariantA.updateSlot slots
          (comp.getD e.1 0) e) (comp.getD e.2.1 0) e with h | h
      · exact Or.inr ⟨h, hcross, Or.inr rfl⟩
      · rw [h]
        by_cases hc1 : comp.getD e.1 0 = comp.getD e.2.1 0
        · exact absurd hc1 hcross
        · rw [updateSlotA_getD_ne slots _ _ e fun hc => hc1 hc.symm]
          exact Or.inl rfl
    · rw [updateSlotA_getD_ne _ _ _ e fun hc => hc2 hc.symm]
      by_cases hc1 : comp.getD e.1 0 = c
      · subst hc1
        rcases updateSlotA_getD_self slots (comp.getD e.1 0) e with h | h
        · exact Or.inr ⟨h, hcross, Or.inl rfl⟩
        · rw [h]
          exact Or.inl rfl
      · rw [updateSlotA_getD_ne slots _ _ e fun hc => hc1 hc.symm]
        exact Or.inl rfl
  · rw [if_neg hcross]
    exact Or.inl rfl

lemma updateStepA_getD_ne_none (comp : List Nat)
    (slots : List (Option Edge)) (e : Edge) (c : Nat)
    (h : slots.getD c none ≠ none) :
    (VariantA.updateMinEdgeStep comp slots e).getD c none ≠ none := by
  rcases updateStepA_getD_cases comp slots e c with hc | hc
  · rw [hc]
    exact h
  · rw [hc.1]
    exact Option.noConfusion

lemma updateStepA_fills (comp : List Nat) (slots : List (Option Edge))
    (e : Edge) (hcross : comp.getD e.1 0 ≠ comp.getD e.2.1 0)
    (h1 : comp.getD e.1 0 < slots.length)
    (h2 : comp.getD e.2.1 0 < slots.length) :
    (VariantA.updateMinEdgeStep comp slots e).getD
      (comp.getD e.1 0) none ≠ none ∧
    (VariantA.updateMinEdgeStep comp slots e).getD
      (comp.getD e.2.1 0) none ≠ none := by
  unfold VariantA.updateMinEdgeStep
  rw [if_pos hcross]
  constructor
  · rw [updateSlotA_getD_ne _ _ _ e hcross]
    exact updateSlotA_getD_self_ne_none slots _ e h1
  · refine updateSlotA_getD_self_ne_none _ _ e ?_
    rw [updateSlotA_length]
    exact h2

lemma updateFoldA_length (comp : List Nat) :
    ∀ (l : List Edge) (slots : List (Option Edge)),
      (l.foldl (VariantA.updateMinEdgeStep comp) slots).length =
        slots.length := by
  intro l
  induction l with
  | nil => intro slots; rfl
  | cons a l ih =>
    intro slots
    rw [List.foldl_cons, ih, updateStepA_length]

lemma updateFoldA_sound (g : Graph) (comp : List Nat) :
    ∀ (l : List Edge) (slots : List (Option Edge)),
      (∀ e ∈ l, e ∈ g.edges) →
      (∀ c e, slots.getD c none = some e →
        e ∈ g.edges ∧ comp.getD e.1 0 ≠ comp.getD e.2.1 0 ∧
        (comp.getD e.1 0 = c ∨ comp.getD e.2.1 0 = c)) →
      ∀ c e, (l.foldl (VariantA.updateMinEdgeStep comp) slots).getD c none =
          some e →
        e ∈ g.edges ∧ comp.getD e.1 0 ≠ comp.getD e.2.1 0 ∧
        (comp.getD e.1 0 = c ∨ comp.getD e.2.1 0 = c) := by
  intro l
  induction l with
  | nil =>
    intro slots _ hbase c e h
    exact hbase c e h
  | cons a l ih =>
    intro slots hmem hbase c e h
    rw [List.foldl_cons] at h
    refine ih _ (fun e' he' => hmem e' (List.mem_cons_of_mem a he')) ?_ c e h
    intro c' e' he'
    rcases updateStepA_getD_cases comp slots a c' with hc | hc
    · rw [hc] at he'
      exact hbase c' e' he'
    · rw [hc.1] at he'
      injection he' with heq
      exact heq ▸ ⟨hmem a (List.mem_cons_self a l), hc.2.1, hc.2.2⟩

lemma updateFoldA_keeps (comp : List Nat) :
    ∀ (l : List Edge) (slots : List (Option Edge)) (c : Nat),
      slots.getD c none ≠ none →
      (l.foldl (VariantA.updateMinEdgeStep comp) slots).getD c none ≠
        none := by
  intro l
  induction l with
  | nil => intro slots c h; exact h
  | cons a l ih =>
    intro slots c h
    rw [List.foldl_cons]
    exact ih _ c (updateStepA_getD_ne_none comp slots a c h)

lemma updateFoldA_fills (comp : List Nat) :
    ∀ (l : List Edge) (slots : List (Option Edge)) (e : Edge), e ∈ l →
      comp.getD e.1 0 ≠ comp.getD e.2.1 0 →
      comp.getD e.1 0 < slots.length →
      comp.getD e.2.1 0 < slots.length →
      (l.foldl (VariantA.updateMinEdgeStep comp) slots).getD
        (comp.getD e.1 0) none ≠ none ∧
      (l.foldl (VariantA.updateMinEdgeStep comp) slots).getD
        (comp.getD e.2.1 0) none ≠ none := by
  intro l
  induction l with
  | nil =>
    intro slots e he
    exact absurd he (List.not_mem_nil e)
  | cons a l ih =>
    intro slots e he hcross h1 h2
    rw [List.foldl_cons]
    rcases List.mem_cons.mp he with rfl | he'
    · have hf := updateStepA_fills comp slots e hcross h1 h2
      exact ⟨updateFoldA_keeps comp l _ _ hf.1,
        updateFoldA_keeps comp l _ _ hf.2⟩
    · refine ih _ e he' hcross ?_ ?_
      · rw [updateStepA_length]
        exact h1
      · rw [updateStepA_length]
        exact h2

lemma labelFinset_map (n : Nat) (comp : List Nat) (f : Nat → Nat)
    (hlen : comp.length = n) :
    labelFinset n (comp.map f) = (labelFinset n comp).image f := by
  unfold labelFinset
  rw [Finset.image_image]
  refine Finset.image_congr ?_
  intro v hv
  rw [Finset.mem_coe, Finset.mem_range] at hv
  show (comp.map f).getD v 0 = f (comp.getD v 0)
  exact getD_map_lt comp f v 0 (by rw [hlen]; exact hv)

lemma image_rename_erase (S : Finset Nat) (a b : Nat) (hb : b ∈ S)
    (hab : a ≠ b) :
    S.image (fun c => if c = a then b else c) = S.erase a := by
  ext x
  simp only [Finset.mem_image, Finset.mem_erase]
  constructor
  · rintro ⟨c, hc, rfl⟩
    by_cases hca : c = a
    · rw [if_pos hca]
      exact ⟨fun hc' => hab hc'.symm, hb⟩
    · rw [if_neg hca]
      exact ⟨hca, hc⟩
  · rintro ⟨hxa, hxS⟩
    exact ⟨x, hxS, by rw [if_neg hxa]⟩

lemma label_mem_labelFinset (n : Nat) (comp : List Nat) (v : Nat)
    (hv : v < n) : comp.getD v 0 ∈ labelFinset n comp := by
  unfold labelFinset
  exact Finset.mem_image_of_mem _ (Finset.mem_range.mpr hv)

/-- The component list produced by variant A's merge is a pointwise
relabelling of one endpoint's component to the other's. -/
lemma mergeA_comp (comp : List Nat) (sizes : List Nat) (v1 v2 : Nat) :
    (VariantA.mergeComponents comp sizes v1 v2).1 =
      comp.map (fun c => if c = comp.getD v1 0 then comp.getD v2 0 else c) ∨
    (VariantA.mergeComponents comp sizes v1 v2).1 =
      comp.map (fun c => if c = comp.getD v2 0 then comp.getD v1 0 else c) := by
  unfold VariantA.mergeComponents
  by_cases h : sizes.getD (comp.getD v1 0) 0 < sizes.getD (comp.getD v2 0) 0
  · left
    simp only [if_pos h]
  · right
    simp only [if_neg h]

lemma mergeA_comp_length (comp : List Nat) (sizes : List Nat)
    (v1 v2 : Nat) :
    (VariantA.mergeComponents comp sizes v1 v2).1.length = comp.length := by
  rcases mergeA_comp comp sizes v1 v2 with h | h <;>
    rw [h, List.length_map]

/-- After variant A's merge, the two endpoints carry the same label. -/
lemma mergeA_labels_eq (comp : List Nat) (sizes : List Nat) (v1 v2 : Nat)
    (h1 : v1 < comp.length) (h2 : v2 < comp.length) :
    (VariantA.mergeComponents comp sizes v1 v2).1.getD v1 0 =
      (VariantA.mergeComponents comp sizes v1 v2).1.getD v2 0 := by
  rcases mergeA_comp comp sizes v1 v2 with h | h <;>
    rw [h, getD_map_lt comp _ v1 0 h1, getD_map_lt comp _ v2 0 h2]
  · by_cases hc : comp.getD v2 0 = comp.getD v1 0
    · rw [if_pos rfl, if_pos hc]
    · rw [if_pos rfl, if_neg hc]
  · by_cases hc : comp.getD v1 0 = comp.getD v2 0
    · rw [if_pos rfl, if_pos hc]
    · rw [if_pos rfl, if_neg hc]

/-- Variant A's merge preserves pointwise label equality. -/
lemma mergeA_label_eq_pres (comp : List Nat) (sizes : List Nat)
    (v1 v2 u v : Nat) (hu : u < comp.length) (hv : v < comp.length)
    (h : comp.getD u 0 = comp.getD v 0) :
    (VariantA.mergeComponents comp sizes v1 v2).1.getD u 0 =
      (VariantA.mergeComponents comp sizes v1 v2).1.getD v 0 := by
  rcases mergeA_comp comp sizes v1 v2 with hm | hm <;>
    rw [hm, getD_map_lt comp _ u 0 hu, getD_map_lt comp _ v 0 hv, h]

/-- Variant A's merge keeps the labels in range. -/
lemma mergeA_labels_lt (comp : List Nat) (sizes : List Nat) (v1 v2 : Nat)
    (n : Nat) (hlen : comp.length = n)
    (hall : ∀ v < n, comp.getD v 0 < n) (h1 : v1 < n) (h2 : v2 < n) :
    ∀ v < n, (VariantA.mergeComponents comp sizes v1 v2).1.getD v 0 < n := by
  intro v hv
  rcases mergeA_comp comp sizes v1 v2 with hm | hm <;>
    rw [hm, getD_map_lt comp _ v 0 (by rw [hlen]; exact hv)]
  · by_cases hc : comp.getD v 0 = comp.getD v1 0
    · rw [if_pos hc]
      exact hall v2 h2
    · rw [if_neg hc]
      exact hall v hv
  · by_cases hc : comp.getD v 0 = comp.getD v2 0
    · rw [if_pos hc]
      exact hall v1 h1
    · rw [if_neg hc]
      exact hall v hv

/-- When the two endpoints are in different components, variant A's merge
removes exactly one label from the label set. -/
lemma mergeA_card (comp : List Nat) (sizes : List Nat) (v1 v2 : Nat)
    (n : Nat) (hlen : comp.length = n) (h1 : v1 < n) (h2 : v2 < n)
    (hcross : comp.getD v1 0 ≠ comp.getD v2 0) :
    (labelFinset n (VariantA.mergeComponents comp sizes v1 v2).1).card + 1 =
      (labelFinset n comp).card ∧
    2 ≤ (labelFinset n comp).card := by
  have hm1 : comp.getD v1 0 ∈ labelFinset n comp :=
    label_mem_labelFinset n comp v1 h1
  have hm2 : comp.getD v2 0 ∈ labelFinset n comp :=
    label_mem_labelFinset n comp v2 h2
  have hcard2 : 2 ≤ (labelFinset n comp).card := by
    have : ({comp.getD v1 0, comp.getD v2 0} : Finset Nat) ⊆
        labelFinset n comp := by
      intro x hx
      rcases Finset.mem_insert.mp hx with rfl | hx
      · exact hm1
      · rw [Finset.mem_singleton.mp hx]
        exact hm2
    have hc : ({comp.getD v1 0, comp.getD v2 0} : Finset Nat).card = 2 :=
      Finset.card_pair hcross
    calc 2 = ({comp.getD v1 0, comp.getD v2 0} : Finset Nat).card := hc.symm
    _ ≤ (labelFinset n comp).card := Finset.card_le_card this
  refine ⟨?_, hcard2⟩
  rcases mergeA_comp comp sizes v1 v2 with hm | hm
  · rw [hm, labelFinset_map n comp _ hlen,
      image_rename_erase _ _ _ hm2 hcross,
      Finset.card_erase_of_mem hm1]
    omega
  · rw [hm, labelFinset_map n comp _ hlen,
      image_rename_erase _ _ _ hm1 (Ne.symm hcross),
      Finset.card_erase_of_mem hm2]
    omega

lemma connectStepA_some (st : VariantA.AState) (e : Edge) :
    VariantA.connectStep st (some e) =
      if st.comp.getD e.1 0 ≠ st.comp.getD e.2.1 0 then
        { comp := (VariantA.mergeComponents st.comp st.sizes e.1 e.2.1).1,
          sizes := (VariantA.mergeComponents st.comp st.sizes e.1 e.2.1).2,
          mstEdges := st.mstEdges ++ [e],
          mstWeight := st.mstWeight + e.2.2,
          numComponents := st.numComponents - 1 }
      else st := rfl

lemma connectStepA_comp_length (st : VariantA.AState) (slot : Option Edge) :
    (VariantA.connectStep st slot).comp.length = st.comp.length := by
  cases slot with
  | none => rfl
  | some e =>
    rw [connectStepA_some]
    by_cases h : st.comp.getD e.1 0 ≠ st.comp.getD e.2.1 0
    · rw [if_pos h]
      exact mergeA_comp_length st.comp st.sizes e.1 e.2.1
    · rw [if_neg h]

lemma connectStepA_label_eq (st : VariantA.AState) (slot : Option Edge)
    (u v : Nat) (hu : u < st.comp.length) (hv : v < st.comp.length)
    (h : st.comp.getD u 0 = st.comp.getD v 0) :
    (VariantA.connectStep st slot).comp.getD u 0 =
      (VariantA.connectStep st slot).comp.getD v 0 := by
  cases slot with
  | none => exact h
  | some e =>
    rw [connectStepA_some]
    by_cases hc : st.comp.getD e.1 0 ≠ st.comp.getD e.2.1 0
    · rw [if_pos hc]
      exact mergeA_label_eq_pres st.comp st.sizes e.1 e.2.1 u v hu hv h
    · rw [if_neg hc]
      exact h

lemma connectFoldA_comp_length :
    ∀ (slots : List (Option Edge)) (st : VariantA.AState),
      (slots.foldl VariantA.connectStep st).comp.length = st.comp.length := by
  intro slots
  induction slots with
  | nil => intro st; rfl
  | cons s slots ih =>
    intro st
    rw [List.foldl_cons, ih, connectStepA_comp_length]

lemma connectFoldA_label_eq :
    ∀ (slots : List (Option Edge)) (st : VariantA.AState) (u v : Nat),
      u < st.comp.length → v < st.comp.length →
      st.comp.getD u 0 = st.comp.getD v 0 →
      (slots.foldl VariantA.connectStep st).comp.getD u 0 =
        (slots.foldl VariantA.connectStep st).comp.getD v 0 := by
  intro slots
  induction slots with
  | nil =>
    intro st u v _ _ h
    exact h
  | cons s slots ih =>
    intro st u v hu hv h
    rw [List.foldl_cons]
    refine ih _ u v ?_ ?_ (connectStepA_label_eq st s u v hu hv h) <;>
      rw [connectStepA_comp_length]
    · exact hu
    · exact hv

/-- After variant A's merge phase, the two endpoints of any held slot
edge carry the same label. -/
lemma connectFoldA_merges :
    ∀ (slots : List (Option Edge)) (st : VariantA.AState) (e : Edge),
      some e ∈ slots → e.1 < st.comp.length → e.2.1 < st.comp.length →
      (slots.foldl VariantA.connectStep st).comp.getD e.1 0 =
        (slots.foldl VariantA.connectStep st).comp.getD e.2.1 0 := by
  intro slots
  induction slots with
  | nil =>
    intro st e he
    exact absurd he (List.not_mem_nil _)
  | cons s slots ih =>
    intro st e he h1 h2
    rw [List.foldl_cons]
    rcases List.mem_cons.mp he with heq | he'
    · -- the head slot holds e: after this step the labels agree, and the
      -- rest of the fold preserves the agreement
      have hstep : (VariantA.connectStep st s).comp.getD e.1 0 =
          (VariantA.connectStep st s).comp.getD e.2.1 0 := by
        rw [← heq, connectStepA_some]
        by_cases hc : st.comp.getD e.1 0 ≠ st.comp.getD e.2.1 0
        · rw [if_pos hc]
          exact mergeA_labels_eq st.comp st.sizes e.1 e.2.1 h1 h2
        · rw [if_neg hc]
          push_neg at hc
          exact hc
      refine connectFoldA_label_eq slots _ e.1 e.2.1 ?_ ?_ hstep <;>
        rw [connectStepA_comp_length]
      · exact h1
      · exact h2
    · refine ih _ e he' ?_ ?_ <;> rw [connectStepA_comp_length]
      · exact h1
      · exact h2

/-- One step of the merge phase preserves the loop invariant, provided
the slot's edge (if any) has in-range endpoints. -/
lemma connectStepA_inv (g : Graph) (st : VariantA.AState)
    (slot : Option Edge) (hInv : VariantA.Inv g st)
    (hslot : ∀ e, slot = some e →
      e.1 < g.numVertices ∧ e.2.1 < g.numVertices) :
    VariantA.Inv g (VariantA.connectStep st slot) := by
  obtain ⟨hlen, hrange, hcount, hweight, htotal⟩ := hInv
  cases slot with
  | none => exact ⟨hlen, hrange, hcount, hweight, htotal⟩
  | some e =>
    obtain ⟨h1, h2⟩ := hslot e rfl
    rw [connectStepA_some]
    by_cases hc : st.comp.getD e.1 0 ≠ st.comp.getD e.2.1 0
    · rw [if_pos hc]
      obtain ⟨hcard, hcard2⟩ :=
        mergeA_card st.comp st.sizes e.1 e.2.1 g.numVertices hlen h1 h2 hc
      refine ⟨?_, ?_, ?_, ?_, ?_⟩
      · show (VariantA.mergeComponents st.comp st.sizes e.1 e.2.1).1.length =
          g.numVertices
        rw [mergeA_comp_length, hlen]
      · exact mergeA_labels_lt st.comp st.sizes e.1 e.2.1 g.numVertices
          hlen hrange h1 h2
      · show st.numComponents - 1 = (labelFinset g.numVertices
          (VariantA.mergeComponents st.comp st.sizes e.1 e.2.1).1).card
        omega
      · show st.mstWeight + e.2.2 = ((st.mstEdges ++ [e]).map
          fun e' => e'.2.2).sum
        rw [List.map_append, List.sum_append, hweight]
        simp
      · show (st.mstEdges ++ [e]).length + (st.numComponents - 1) =
          g.numVertices
        rw [List.length_append]
        simp only [List.length_cons, List.length_nil]
        omega
    · rw [if_neg hc]
      exact ⟨hlen, hrange, hcount, hweight, htotal⟩

/-- The merge phase preserves the loop invariant. -/
lemma connectFoldA_inv (g : Graph) :
    ∀ (slots : List (Option Edge)) (st : VariantA.AState),
      VariantA.Inv g st →
      (∀ s ∈ slots, ∀ e, s = some e →
        e.1 < g.numVertices ∧ e.2.1 < g.numVertices) →
      VariantA.Inv g (slots.foldl VariantA.connectStep st) := by
  intro slots
  induction slots with
  | nil =>
    intro st hInv _
    exact hInv
  | cons s slots ih =>
    intro st hInv hslots
    rw [List.foldl_cons]
    refine ih _ (connectStepA_inv g st s hInv ?_) ?_
    · exact hslots s (List.mem_cons_self s slots)
    · intro s' hs'
      exact hslots s' (List.mem_cons_of_mem s hs')

lemma getD_replicate_none (n c : Nat) :
    (List.replicate n (none : Option Edge)).getD c none = none := by
  simp [List.getD_eq_getElem?_getD, List.getElem?_replicate]
  split <;> rfl

lemma mem_getD_of_getD (l : List (Option Edge)) (c : Nat) (e : Edge)
    (h : l.getD c none = some e) : some e ∈ l := by
  have hc : c < l.length := getD_isSome_lt l c e h
  rw [← h]
  exact getD_mem_of_lt l c none hc

lemma getD_of_mem (l : List (Option Edge)) (s : Option Edge) (hs : s ∈ l) :
    ∃ i, i < l.length ∧ l.getD i none = s := by
  obtain ⟨i, hi, hg⟩ := List.mem_iff_getElem.mp hs
  exact ⟨i, hi, by
    rw [List.getD_eq_getElem?_getD, List.getElem?_eq_getElem hi, hg]
    rfl⟩

/-- In a connected graph, a vertex whose component label differs from
some other vertex's label is incident (through its component) to a stored
edge crossing two components. -/
lemma crossing_edge_of_label_ne (g : Graph) (comp : List Nat) (u v : Nat)
    (hpath : Relation.ReflTransGen g.Adj u v)
    (hne : comp.getD u 0 ≠ comp.getD v 0) :
    ∃ e ∈ g.edges, comp.getD e.1 0 ≠ comp.getD e.2.1 0 ∧
      (comp.getD e.1 0 = comp.getD u 0 ∨
        comp.getD e.2.1 0 = comp.getD u 0) := by
  induction hpath using Relation.ReflTransGen.head_induction_on with
  | refl => exact absurd rfl hne
  | @head a c hadj hpath ih =>
    by_cases hac : comp.getD a 0 = comp.getD c 0
    · obtain ⟨e, he, hcr, hkey⟩ := ih (by rw [← hac]; exact hne)
      refine ⟨e, he, hcr, ?_⟩
      rw [← hac] at hkey
      exact hkey
    · obtain ⟨w, hw | hw⟩ := hadj
      · exact ⟨(a, c, w), hw, hac, Or.inl rfl⟩
      · exact ⟨(c, a, w), hw, fun hcc => hac hcc.symm, Or.inr rfl⟩

/-- One round of variant A preserves the loop invariant. -/
lemma iterationA_inv (g : Graph) (hwf : g.WF) (st : VariantA.AState)
    (hInv : VariantA.Inv g st) :
    VariantA.Inv g (VariantA.performIteration g st) := by
  have hbase : ∀ c e,
      (List.replicate g.numVertices (none : Option Edge)).getD c none =
        some e →
      e ∈ g.edges ∧ st.comp.getD e.1 0 ≠ st.comp.getD e.2.1 0 ∧
      (st.comp.getD e.1 0 = c ∨ st.comp.getD e.2.1 0 = c) := by
    intro c e h
    rw [getD_replicate_none] at h
    exact Option.noConfusion h
  have hsound := updateFoldA_sound g st.comp g.edges
    (List.replicate g.numVertices none) (fun e he => he) hbase
  refine connectFoldA_inv g _ st hInv ?_
  intro s hs e hse
  subst hse
  obtain ⟨i, hi, hg⟩ := getD_of_mem _ _ hs
  obtain ⟨hmem, _, _⟩ := hsound i e hg
  exact hwf e hmem

/-- For a connected well-formed graph, each round of variant A at least
halves the number of surviving components. -/
lemma iterationA_halves (g : Graph) (hwf : g.WF) (hconn : g.Connected)
    (st : VariantA.AState) (hInv : VariantA.Inv g st)
    (h2 : 2 ≤ st.numComponents) :
    (VariantA.performIteration g st).numComponents ≤
      st.numComponents / 2 := by
  classical
  obtain ⟨hlen, hrange, hcount, hweight, htotal⟩ := hInv
  set n := g.numVertices with hn
  set comp0 := st.comp with hcomp0
  set slots1 := VariantA.updateMinEdgePerComponent g comp0
    (List.replicate n none) with hslots1
  have hst' : VariantA.performIteration g st =
      slots1.foldl VariantA.connectStep st := rfl
  set st' := VariantA.performIteration g st with hst'def
  have hInv' : VariantA.Inv g st' :=
    iterationA_inv g hwf st ⟨hlen, hrange, hcount, hweight, htotal⟩
  obtain ⟨hlen', _, hcount', _, _⟩ := hInv'
  -- the slot list is sound with respect to the round-start labels
  have hbase : ∀ c e,
      (List.replicate n (none : Option Edge)).getD c none = some e →
      e ∈ g.edges ∧ comp0.getD e.1 0 ≠ comp0.getD e.2.1 0 ∧
      (comp0.getD e.1 0 = c ∨ comp0.getD e.2.1 0 = c) := by
    intro c e h
    rw [getD_replicate_none] at h
    exact Option.noConfusion h
  have hsound : ∀ c e, slots1.getD c none = some e →
      e ∈ g.edges ∧ comp0.getD e.1 0 ≠ comp0.getD e.2.1 0 ∧
      (comp0.getD e.1 0 = c ∨ comp0.getD e.2.1 0 = c) :=
    updateFoldA_sound g comp0 g.edges (List.replicate n none)
      (fun e he => he) hbase
  have hslots1len : slots1.length = n := by
    rw [hslots1]
    unfold VariantA.updateMinEdgePerComponent
    rw [updateFoldA_length, List.length_replicate]
  -- there are two distinct labels in use
  have hcard2 : 1 < (labelFinset n comp0).card := by omega
  obtain ⟨la, hla, lb, hlb, hlab⟩ := Finset.one_lt_card.mp hcard2
  obtain ⟨ua, hua, huaeq⟩ := Finset.mem_image.mp hla
  obtain ⟨ub, hub, hubeq⟩ := Finset.mem_image.mp hlb
  rw [Finset.mem_range] at hua hub
  -- every vertex's component has a filled slot
  have hfilled : ∀ u, u < n → slots1.getD (comp0.getD u 0) none ≠ none := by
    intro u hu
    have hother : ∃ v, v < n ∧ comp0.getD v 0 ≠ comp0.getD u 0 := by
      by_cases hne : comp0.getD u 0 = la
      · exact ⟨ub, hub, by rw [hubeq, hne]; exact fun hc => hlab hc.symm⟩
      · exact ⟨ua, hua, by rw [huaeq]; exact fun hc => hne hc.symm⟩
    obtain ⟨v, hv, hvne⟩ := hother
    obtain ⟨e, he, hcr, hkey⟩ := crossing_edge_of_label_ne g comp0 u v
      (hconn u (by rw [hn] at hu; exact hu) v (by rw [hn] at hv; exact hv))
      (fun hc => hvne hc.symm)
    have hb1 : comp0.getD e.1 0 < slots1.length := by
      rw [hslots1len]
      exact hrange e.1 (hwf e he).1
    have hb2 : comp0.getD e.2.1 0 < slots1.length := by
      rw [hslots1len]
      exact hrange e.2.1 (hwf e he).2
    have hb1' : comp0.getD e.1 0 < (List.replicate n
        (none : Option Edge)).length := by
      rw [List.length_replicate]
      rw [hslots1len] at hb1
      exact hb1
    have hb2' : comp0.getD e.2.1 0 < (List.replicate n
        (none : Option Edge)).length := by
      rw [List.length_replicate]
      rw [hslots1len] at hb2
      exact hb2
    have hfills := updateFoldA_fills comp0 g.edges
      (List.replicate n none) e he hcr hb1' hb2'
    rcases hkey with hk | hk
    · rw [← hk]
      exact hfills.1
    · rw [← hk]
      exact hfills.2
  -- coarsening: equal start labels give equal end labels
  have hcoarse : ∀ x y, x < n → y < n →
      comp0.getD x 0 = comp0.getD y 0 →
      st'.comp.getD x 0 = st'.comp.getD y 0 := by
    intro x y hx hy hxy
    show (slots1.foldl VariantA.connectStep st).comp.getD x 0 =
      (slots1.foldl VariantA.connectStep st).comp.getD y 0
    exact connectFoldA_label_eq slots1 st x y (by rw [hlen]; exact hx)
      (by rw [hlen]; exact hy) hxy
  -- pairing: every vertex's start component is joined with another one
  have hpair : ∀ u, u < n → ∃ y, y < n ∧
      comp0.getD y 0 ≠ comp0.getD u 0 ∧
      st'.comp.getD y 0 = st'.comp.getD u 0 := by
    intro u hu
    cases hslot : slots1.getD (comp0.getD u 0) none with
    | none => exact absurd hslot (hfilled u hu)
    | some e =>
      obtain ⟨he, hcr, hkey⟩ := hsound _ e hslot
      have he1 : e.1 < n := (hwf e he).1
      have he2 : e.2.1 < n := (hwf e he).2
      have hmerged : st'.comp.getD e.1 0 = st'.comp.getD e.2.1 0 := by
        show (slots1.foldl VariantA.connectStep st).comp.getD e.1 0 =
          (slots1.foldl VariantA.connectStep st).comp.getD e.2.1 0
        exact connectFoldA_merges slots1 st e
          (mem_getD_of_getD slots1 _ e hslot)
          (by rw [hlen]; exact he1) (by rw [hlen]; exact he2)
      rcases hkey with hk | hk
      · refine ⟨e.2.1, he2, by rw [← hk]; exact fun hc => hcr hc.symm, ?_⟩
        rw [← hmerged]
        exact (hcoarse u e.1 hu he1 hk.symm).symm
      · refine ⟨e.1, he1, by rw [← hk]; exact hcr, ?_⟩
        rw [hmerged]
        exact (hcoarse u e.2.1 hu he2 hk.symm).symm
  -- count: map each start label to the end label of a representative
  set F : Nat → Nat := fun c =>
    match (List.range n).find? (fun w => comp0.getD w 0 == c) with
    | some w => st'.comp.getD w 0
    | none => c with hF
  have hrep : ∀ c, c ∈ labelFinset n comp0 →
      ∃ w, w < n ∧ comp0.getD w 0 = c ∧ F c = st'.comp.getD w 0 := by
    intro c hc
    obtain ⟨u, hu, hueq⟩ := Finset.mem_image.mp hc
    rw [Finset.mem_range] at hu
    have hex : ∃ x ∈ List.range n, (comp0.getD x 0 == c) = true :=
      ⟨u, List.mem_range.mpr hu, by rw [hueq]; exact beq_self_eq_true c⟩
    have hsome : ((List.range n).find? fun w => comp0.getD w 0 == c).isSome =
        true := List.find?_isSome.mpr hex
    cases hfind : (List.range n).find? (fun w => comp0.getD w 0 == c) with
    | none => rw [hfind] at hsome; exact Bool.noConfusion hsome
    | some w =>
      refine ⟨w, ?_, ?_, ?_⟩
      · exact List.mem_range.mp (List.mem_of_find?_eq_some hfind)
      · have hp := List.find?_some hfind
        simp only [beq_iff_eq] at hp
        exact hp
      · rw [hF]
        simp only [hfind]
  have hmaps : ∀ c ∈ labelFinset n comp0, F c ∈ labelFinset n st'.comp := by
    intro c hc
    obtain ⟨w, hw, _, hFc⟩ := hrep c hc
    rw [hFc]
    exact label_mem_labelFinset n st'.comp w hw
  have hfibers : ∀ t ∈ labelFinset n st'.comp,
      2 ≤ ((labelFinset n comp0).filter fun c => F c = t).card := by
    intro t ht
    obtain ⟨u0, hu0, hu0eq⟩ := Finset.mem_image.mp ht
    rw [Finset.mem_range] at hu0
    obtain ⟨y, hy, hyne, hyeq⟩ := hpair u0 hu0
    have hc1 : comp0.getD u0 0 ∈ labelFinset n comp0 :=
      label_mem_labelFinset n comp0 u0 hu0
    have hc2 : comp0.getD y 0 ∈ labelFinset n comp0 :=
      label_mem_labelFinset n comp0 y hy
    have hF1 : F (comp0.getD u0 0) = t := by
      obtain ⟨w, hw, hweq, hFc⟩ := hrep _ hc1
      rw [hFc, ← hu0eq]
      exact hcoarse w u0 hw hu0 hweq
    have hF2 : F (comp0.getD y 0) = t := by
      obtain ⟨w, hw, hweq, hFc⟩ := hrep _ hc2
      rw [hFc, ← hu0eq, ← hyeq]
      exact hcoarse w y hw hy hweq
    exact Finset.one_lt_card.mpr ⟨comp0.getD u0 0,
      Finset.mem_filter.mpr ⟨hc1, hF1⟩, comp0.getD y 0,
      Finset.mem_filter.mpr ⟨hc2, hF2⟩, fun hc => hyne hc.symm⟩
  have hsum := Finset.card_eq_sum_card_fiberwise hmaps
  have hge : (labelFinset n st'.comp).card * 2 ≤
      (labelFinset n comp0).card := by
    rw [hsum]
    calc (labelFinset n st'.comp).card * 2
        = ∑ _t ∈ labelFinset n st'.comp, 2 := by
          rw [Finset.sum_const, smul_eq_mul]
      _ ≤ ∑ t ∈ labelFinset n st'.comp,
            ((labelFinset n comp0).filter fun c => F c = t).card :=
          Finset.sum_le_sum hfibers
  have h1 : st'.numComponents = (labelFinset n st'.comp).card := hcount'
  have h2 : st.numComponents = (labelFinset n comp0).card := hcount
  omega

lemma runLoopA_succ (g : Graph) (fuel : Nat) (st : VariantA.AState) :
    VariantA.runLoop g (fuel + 1) st =
      if st.numComponents ≤ 1 then some st
      else VariantA.runLoop g fuel (VariantA.performIteration g st) := rfl

lemma runLoopA_zero (g : Graph) (st : VariantA.AState) :
    VariantA.runLoop g 0 st =
      if st.numComponents ≤ 1 then some st else none := rfl

lemma labelFinset_card_pos (n : Nat) (comp : List Nat) (hn : 1 ≤ n) :
    1 ≤ (labelFinset n comp).card :=
  Finset.card_pos.mpr ⟨comp.getD 0 0, label_mem_labelFinset n comp 0 hn⟩

/-- Running the loop with enough fuel on a connected graph terminates
with a single component. -/
lemma runLoopA_spec (g : Graph) (hwf : g.WF) (hconn : g.Connected)
    (hn : 1 ≤ g.numVertices) :
    ∀ (fuel : Nat) (st : VariantA.AState), VariantA.Inv g st →
      st.numComponents ≤ 2 ^ fuel →
      ∃ st', VariantA.runLoop g fuel st = some st' ∧ VariantA.Inv g st' ∧
        st'.numComponents = 1 := by
  intro fuel
  induction fuel with
  | zero =>
    intro st hInv hle
    rw [Nat.pow_zero] at hle
    have h1 : 1 ≤ st.numComponents := by
      have hc := labelFinset_card_pos g.numVertices st.comp hn
      have := hInv.2.2.1
      omega
    rw [runLoopA_zero, if_pos hle]
    exact ⟨st, rfl, hInv, by omega⟩
  | succ fuel ih =>
    intro st hInv hle
    by_cases hstop : st.numComponents ≤ 1
    · have h1 : 1 ≤ st.numComponents := by
        have hc := labelFinset_card_pos g.numVertices st.comp hn
        have := hInv.2.2.1
        omega
      rw [runLoopA_succ, if_pos hstop]
      exact ⟨st, rfl, hInv, by omega⟩
    · push_neg at hstop
      have hInv' := iterationA_inv g hwf st hInv
      have hhalf := iterationA_halves g hwf hconn st hInv (by omega)
      have hpow : 2 ^ (fuel + 1) = 2 ^ fuel * 2 := Nat.pow_succ 2 fuel
      rw [runLoopA_succ, if_neg (by omega)]
      exact ih (VariantA.performIteration g st) hInv' (by omega)

/-- The initial state satisfies the loop invariant. -/
lemma initA_inv (g : Graph) :
    VariantA.Inv g (VariantA.initializeComponents g) := by
  refine ⟨List.length_range g.numVertices, ?_, ?_, rfl, ?_⟩
  · intro v hv
    show (List.range g.numVertices).getD v 0 < g.numVertices
    rw [getD_range_lt _ v hv]
    exact hv
  · show g.numVertices =
      (labelFinset g.numVertices (List.range g.numVertices)).card
    have hid : labelFinset g.numVertices (List.range g.numVertices) =
        Finset.range g.numVertices := by
      ext x
      unfold labelFinset
      simp only [Finset.mem_image, Finset.mem_range]
      constructor
      · rintro ⟨v, hv, rfl⟩
        rw [getD_range_lt _ v hv]
        exact hv
      · intro hx
        exact ⟨x, hx, getD_range_lt _ x hx⟩
    rw [hid, Finset.card_range]
  · show ([] : List Edge).length + g.numVertices = g.numVertices
    rw [List.length_nil, Nat.zero_add]

/-- C2 amended: on every connected well-formed graph with at least one
vertex, `run_boruvkas_algorithm` terminates and returns an edge list of
length `|V| - 1` whose weights sum to the returned weight. -/
theorem boruvka_reference_connected_sound (g : Graph) (hwf : g.WF)
    (hconn : g.Connected) (hn : 1 ≤ g.numVertices) :
    ∃ w edges, VariantA.runBoruvkasAlgorithm g = some (w, edges) ∧
      edges.length = g.numVertices - 1 ∧
      w = (edges.map fun e => e.2.2).sum := by
  obtain ⟨st', hrun, hInv', hone⟩ := runLoopA_spec g hwf hconn hn
    g.numVertices (VariantA.initializeComponents g) (initA_inv g)
    (le_of_lt (Nat.lt_two_pow g.numVertices))
  obtain ⟨_, _, _, hweight, htotal⟩ := hInv'
  refine ⟨st'.mstWeight, st'.mstEdges, ?_, by omega, hweight⟩
  unfold VariantA.runBoruvkasAlgorithm
  rw [hrun]
  rfl

/-- The two-vertex single-edge graph is well-formed. -/
lemma pathGraph2_wf : Graph.WF ⟨2, [(0, 1, 5)]⟩ := by
  intro e he
  rw [List.mem_singleton] at he
  subst he
  exact ⟨by decide, by decide⟩

/-- The two-vertex single-edge graph is connected. -/
lemma pathGraph2_connected : Graph.Connected ⟨2, [(0, 1, 5)]⟩ := by
  have e01 : Graph.Adj ⟨2, [(0, 1, 5)]⟩ 0 1 := ⟨5, Or.inl (by decide)⟩
  have h1 : Relation.ReflTransGen (Graph.Adj ⟨2, [(0, 1, 5)]⟩) 0 1 :=
    .single e01
  intro u hu v hv
  have reach : ∀ x, x < 2 →
      Relation.ReflTransGen (Graph.Adj ⟨2, [(0, 1, 5)]⟩) 0 x := by
    intro x hx
    interval_cases x
    exacts [.refl, h1]
  exact ((Relation.ReflTransGen.symmetric (graph_adj_symm _))
    (reach u hu)).trans (reach v hv)

/-- Witness for the soundness theorem on the two-vertex one-edge graph. -/
theorem boruvka_reference_connected_sound_witness :
    ∃ w edges,
      VariantA.runBoruvkasAlgorithm ⟨2, [(0, 1, 5)]⟩ = some (w, edges) ∧
      edges.length = (⟨2, [(0, 1, 5)]⟩ : Graph).numVertices - 1 ∧
      w = (edges.map fun e => e.2.2).sum :=
  boruvka_reference_connected_sound ⟨2, [(0, 1, 5)]⟩ pathGraph2_wf
    pathGraph2_connected (by decide)

